import Mathlib

/-!
Verification of the text-reconstruction-and-matching engine of
`src/googleDocsApiHelpers.ts` (Google Docs MCP helpers).

Shallow embedding conventions:
* JS strings are modelled as lists of Unicode code points (`Str := List Nat`);
  the queries and document text handled by this code are plain-plane text,
  where JS UTF-16 code units and code points coincide.
* Native document indices are natural numbers.
* The awaited `docs.documents.get` fetch is modelled as an
  `Except FetchErr (Option ...)` value handed to the function
  (`Except.error` = the fetch threw; `Except.ok none` = response without
  `body.content`).
* The two unbounded `while (true)` scan loops of `findTextRange` are modelled
  with explicit fuel (`scanLoop`); fuel sufficiency for non-empty search
  strings is proved (claim C10).  The JS loops diverge for an empty search
  string, so every theorem about the scans carries a non-emptiness hypothesis.
-/

/-- Code point of a JS string (UTF-16 unit = code point on the texts involved). -/
abbrev Ch := Nat

/-- JS string, as its list of code points. -/
abbrev Str := List Nat

/-- Character class of the first `replace` of `normalizeText` and of the
`['’‘‛`´]` classes in `highlightApostrophePhrase`:
straight apostrophe, right/left single curly quote, low-9 single quote,
grave accent, acute accent. -/
def isApoChar (c : Ch) : Bool :=
  c == 0x27 || c == 0x2019 || c == 0x2018 || c == 0x201B || c == 0x60 || c == 0xB4

/-- Character class `[“”„‟″‶]` (double-quote family). -/
def isQuoteChar (c : Ch) : Bool :=
  c == 0x201C || c == 0x201D || c == 0x201E || c == 0x201F || c == 0x2033 || c == 0x2036

/-- Character class `[–—―]` (dash family). -/
def isDashChar (c : Ch) : Bool :=
  c == 0x2013 || c == 0x2014 || c == 0x2015

/-- The ECMAScript `\s` class (WhiteSpace ∪ LineTerminator), which is also the
set trimmed by `String.prototype.trim`. -/
def isJsWs (c : Ch) : Bool :=
  c == 0x20 || c == 0x09 || c == 0x0A || c == 0x0B || c == 0x0C || c == 0x0D ||
  c == 0xA0 || c == 0x1680 || (0x2000 ≤ c && c ≤ 0x200A) ||
  c == 0x2028 || c == 0x2029 || c == 0x202F || c == 0x205F || c == 0x3000 || c == 0xFEFF

/-- Effect of `.replace(/['’‘‛`´]/g, "'")` on one
code point (a single-character class replaced globally acts pointwise). -/
def apoTo (c : Ch) : Ch := if isApoChar c then 0x27 else c

/-- Effect of `.replace(/[“”„‟″‶]/g, '"')` on one code point. -/
def quoteTo (c : Ch) : Ch := if isQuoteChar c then 0x22 else c

/-- Effect of `.replace(/[–—―]/g, '-')` on one code point. -/
def dashTo (c : Ch) : Ch := if isDashChar c then 0x2D else c

/-- Effect of `.replace(/ /g, ' ')` on one code point. -/
def nbspTo (c : Ch) : Ch := if c == 0xA0 then 0x20 else c

/-- Effect of `.replace(/\s+/g, ' ')`: every maximal run of `\s` characters is
replaced by a single ASCII space.  The scan below emits the single space at the
final character of each run, which yields exactly the replaced string. -/
def collapseWs : Str → Str
  | [] => []
  | [c] => if isJsWs c then [0x20] else [c]
  | c :: d :: rest =>
    if isJsWs c && isJsWs d then collapseWs (d :: rest)
    else (if isJsWs c then 0x20 else c) :: collapseWs (d :: rest)

/-- Effect of `.replace(/ - /g, ' ')`.  Note the regex has no character
class brackets: it matches the literal three-character sequence
U+2000, '-', U+200A, not a range. -/
def replaceU2000Seq : Str → Str
  | 0x2000 :: 0x2D :: 0x200A :: rest => 0x20 :: replaceU2000Seq rest
  | c :: rest => c :: replaceU2000Seq rest
  | [] => []

/-- JS `String.prototype.trim`: drop `\s`-class characters from both ends. -/
def jsTrim (s : Str) : Str :=
  ((s.dropWhile (fun c => isJsWs c)).reverse.dropWhile (fun c => isJsWs c)).reverse

/-- The `normalizeText` closure of `findTextRange`: apostrophes, double quotes
and dashes canonicalized, whitespace runs collapsed to one space, the literal
sequence U+2000 '-' U+200A replaced, and the result trimmed, in source order. -/
def normalizeText (s : Str) : Str :=
  jsTrim (replaceU2000Seq ((collapseWs (((s.map apoTo).map quoteTo).map dashTo)).map nbspTo))

/-- Third entry of `searchVariants`:
`textToFind.replace(/['’‘‛`´]/g, "'")`. -/
def apoStd (s : Str) : Str := s.map apoTo

/-- The `searchVariants` array of `findTextRange`: the literal query, the fully
normalized query, and the apostrophe-standardized query, in that order. -/
def searchVariants (textToFind : Str) : List Str :=
  [textToFind, normalizeText textToFind, apoStd textToFind]

/-- Occurrence positions of `pat` in `text`: the indices `i` with `pat` an
exact prefix of `text.drop i` (for non-empty `pat` these are exactly the
indices JS `indexOf` can return). -/
def occPositions (pat text : Str) : List Nat :=
  (List.range (text.length + 1)).filter (fun i => pat.isPrefixOf (text.drop i))

/-- JS `text.indexOf(pat, si)`: the least occurrence position `≥ si`, if any.
For empty `pat` with `si > text.length` JS clamps and returns `text.length`
(which is what makes the scan loops below diverge on an empty search string);
here the result is `none`, and every theorem about the scans assumes a
non-empty pattern, where the two agree. -/
def jsIndexOf (pat text : Str) (si : Nat) : Option Nat :=
  ((List.range (text.length + 1)).filter
    (fun i => decide (si ≤ i) && pat.isPrefixOf (text.drop i))).head?

/-- Fuel-indexed model of the `while (true)` scan loops of
`findValidatedMatches`: starting at search index `si`, collect each
`foundIndex` and restart at `foundIndex + 1`; `none` means the fuel ran out
before `indexOf` failed. -/
def scanLoop (pat text : Str) : Nat → Nat → Option (List Nat)
  | 0, _ => none
  | fuel + 1, si =>
    match jsIndexOf pat text si with
    | none => some []
    | some fi => (scanLoop pat text fuel (fi + 1)).map (fun hs => fi :: hs)

/-- All hit positions produced by a scan loop started at index 0, run with
enough fuel (`text.length + 2` suffices for any pattern in this model). -/
def findAllHits (pat text : Str) : List Nat :=
  (scanLoop pat text (text.length + 2) 0).getD []

/-- One `TextSegment` of `findTextRange`: a paragraph text run together with
its native start and end indices. -/
structure TextSegment where
  text : Str
  startIndex : Nat
  endIndex : Nat
deriving DecidableEq

/-- One entry of `charToSegmentMap`: for a position of the flattened string,
the segment it came from, the offset inside that segment, and the recovered
native index `segment.startIndex + charIndex`. -/
structure CharMapping where
  segmentIndex : Nat
  charIndex : Nat
  originalIndex : Nat
deriving DecidableEq

/-- A `{ startIndex, endIndex }` result range, in native index space. -/
structure MatchRange where
  startIndex : Nat
  endIndex : Nat
deriving DecidableEq

/-- One `paragraph.elements` entry as fetched by `findTextRange`:
`textRun.content` (absent field and absent run collapsed to `none`) and the
optional `startIndex` / `endIndex` fields. -/
structure ParaElem where
  content : Option Str
  startIndex : Option Nat
  endIndex : Option Nat

/-- One `body.content` structural element as fetched by `findTextRange`: its
paragraph elements (absent `paragraph` or `paragraph.elements` collapses to
`[]`, which the loops treat identically) and its table rows, each row a list
of cells, each cell a `content` list (absent collections likewise `[]`). -/
inductive ContentElem where
  | mk (paraElems : List ParaElem) (tableRows : List (List (List ContentElem))) : ContentElem

/-- The guarded push of `extractTextFromContent`: a segment is emitted only
when `pe.textRun?.content` is truthy (present and non-empty — the empty string
is falsy in JS) and both indices are present. -/
def segOfParaElem (pe : ParaElem) : Option TextSegment :=
  match pe.content, pe.startIndex, pe.endIndex with
  | some c, some s, some e => if c.isEmpty then none else some ⟨c, s, e⟩
  | _, _, _ => none

mutual
/-- The recursive `extractTextFromContent` walk of `findTextRange`: per
element, first the paragraph text runs, then every table cell in row order. -/
def extractFromContent : List ContentElem → List TextSegment
  | [] => []
  | ContentElem.mk pes rows :: rest =>
    pes.filterMap segOfParaElem ++ extractFromRows rows ++ extractFromContent rest

/-- Table rows of one element, in order. -/
def extractFromRows : List (List (List ContentElem)) → List TextSegment
  | [] => []
  | r :: rs => extractFromCells r ++ extractFromRows rs

/-- Cells of one row, in order; each recurses into the cell content. -/
def extractFromCells : List (List ContentElem) → List TextSegment
  | [] => []
  | c :: cs => extractFromContent c ++ extractFromCells cs
end

/-- Stable insertion of `a` into a list already sorted by `key`: `a` is placed
before the first element with a key `≥ key a`, so that among equal keys the
inserted (originally earlier) element comes first. -/
def insertByKey (key : α → Nat) (a : α) : List α → List α
  | [] => [a]
  | x :: xs => if key a ≤ key x then a :: x :: xs else x :: insertByKey key a xs

/-- Model of JS `Array.prototype.sort` with the numeric comparators used here:
a stable sort by the given key (JS sort is stable, and all stable sorts by the
same key agree). -/
def stableSortByKey (key : α → Nat) (l : List α) : List α :=
  l.foldr (insertByKey key) []

/-- The `textSegments.sort((a, b) => a.startIndex - b.startIndex)` step. -/
def sortSegs (segs : List TextSegment) : List TextSegment :=
  stableSortByKey TextSegment.startIndex segs

/-- The `fullText` string built by the per-segment, per-character loop:
the concatenation of the sorted segment texts. -/
def buildFullText (segs : List TextSegment) : Str :=
  (segs.map TextSegment.text).flatten

/-- The `charToSegmentMap` array built by the same loop: one entry per
character of each segment, recording `segment.startIndex + charIndex`. -/
def buildCharMap (segs : List TextSegment) : List CharMapping :=
  (segs.enum.map (fun p =>
    (List.range p.2.text.length).map (fun ci => ⟨p.1, ci, p.2.startIndex + ci⟩))).flatten

/-- JS `text.substring(a, b)` (arguments already clamped below by 0 via `Nat`):
clamp to the length and swap if out of order. -/
def jsSubstring (t : Str) (a b : Nat) : Str :=
  let a' := min a t.length
  let b' := min b t.length
  (t.drop (min a' b')).take (max a' b' - min a' b')

/-- The `extractTextFromRange` closure of `findTextRange`: for every segment
overlapping `[s, e)`, concatenate the overlapping substring, in segment
order. -/
def extractTextFromRange : List TextSegment → Nat → Nat → Str
  | [], _, _ => []
  | seg :: rest, s, e =>
    (if seg.startIndex < e && seg.endIndex > s then
      jsSubstring seg.text (max seg.startIndex s - seg.startIndex)
        (min seg.endIndex e - seg.startIndex)
     else []) ++ extractTextFromRange rest s e

/-- The exact pass of `findValidatedMatches`: every hit of the scan loop is
mapped through `charToSegmentMap`; a hit is kept only when both the start and
end lookups are defined (for non-empty patterns they always are).  The JS end
lookup is `charToSegmentMap[foundIndex + searchText.length - 1]`, undefined
for a negative index; the `Nat` subtraction here matches it for non-empty
`pat`, the only case the theorems use. -/
def exactPassMatches (cm : List CharMapping) (fullText pat : Str) : List MatchRange :=
  (findAllHits pat fullText).filterMap (fun fi =>
    match cm.get? fi, cm.get? (fi + pat.length - 1) with
    | some sm, some em => some ⟨sm.originalIndex, em.originalIndex + 1⟩
    | _, _ => none)

/-- First character-walking loop of the normalized pass: advance
`originalFoundIndex` (accumulator `o`) through the original text, adding each
character's `normalizeText` length to `normalizedIndex` (accumulator `n`),
while `n < target` and characters remain. -/
def walkStart : Str → Nat → Nat → Nat → Nat
  | [], o, _, _ => o
  | c :: rest, o, n, target =>
    if n < target then walkStart rest (o + 1) (n + (normalizeText [c]).length) target else o

/-- Second character-walking loop of the normalized pass: advance
`originalEndIndex` (accumulator `o`) while `remaining > 0` and characters
remain, subtracting each character's `normalizeText` length. -/
def walkEnd : Str → Nat → Nat → Nat
  | [], o, _ => o
  | c :: rest, o, remaining =>
    if 0 < remaining then walkEnd rest (o + 1) (remaining - (normalizeText [c]).length) else o

/-- Body of one normalized-pass iteration at hit `fi`: walk the original text
to recover an original span, map it through `charToSegmentMap` (the JS end
lookup `charToSegmentMap[originalEndIndex - 1]` is undefined when
`originalEndIndex` is 0), re-extract the actual text of the span, and accept
the candidate only when the re-normalized actual text equals the normalized
search text. -/
def normCandidate (segs : List TextSegment) (cm : List CharMapping) (fullText nq : Str)
    (fi : Nat) : Option MatchRange :=
  let oStart := walkStart fullText 0 0 fi
  let oEnd := walkEnd (fullText.drop oStart) oStart nq.length
  match cm.get? oStart, (if oEnd = 0 then none else cm.get? (oEnd - 1)) with
  | some sm, some em =>
    if normalizeText (extractTextFromRange segs sm.originalIndex (em.originalIndex + 1)) = nq
    then some ⟨sm.originalIndex, em.originalIndex + 1⟩
    else none
  | _, _ => none

/-- The normalized pass of `findValidatedMatches` for normalized query `nq`:
scan the normalized full text and keep each candidate that survives
round-trip validation.  (The JS loop interleaves candidate processing with the
scan; the scan state does not depend on the processing, so hits-then-process
is the same computation.) -/
def normPassMatches (segs : List TextSegment) (cm : List CharMapping) (fullText nq : Str) :
    List MatchRange :=
  (findAllHits nq (normalizeText fullText)).filterMap (normCandidate segs cm fullText nq)

/-- The `findValidatedMatches` closure: the exact pass, and the normalized
pass only when the exact pass found nothing. -/
def findValidatedMatches (segs : List TextSegment) (cm : List CharMapping)
    (fullText searchText : Str) : List MatchRange :=
  let ex := exactPassMatches cm fullText searchText
  if ex.isEmpty then normPassMatches segs cm fullText (normalizeText searchText) else ex

/-- The variant loop of `findTextRange`: concatenate each variant's matches
onto the accumulator and break as soon as the accumulated count reaches the
requested instance. -/
def tryVariants (f : Str → List MatchRange) (instanceNum : Nat) :
    List MatchRange → List Str → List MatchRange
  | acc, [] => acc
  | acc, v :: vs =>
    let acc' := acc ++ f v
    if instanceNum ≤ acc'.length then acc' else tryVariants f instanceNum acc' vs

/-- Accumulator form of the `new Map(...)` deduplication: keep each range not
seen before.  The JS map key `` `${startIndex}-${endIndex}` `` is injective on
ranges, duplicate insertions keep the first insertion position, and the values
of equal keys are equal ranges — so the map's values are exactly the first
occurrences, in order. -/
def dedupeAux (seen : List MatchRange) : List MatchRange → List MatchRange
  | [] => []
  | r :: rs => if r ∈ seen then dedupeAux seen rs else r :: dedupeAux (r :: seen) rs

/-- The `new Map(allMatches.map(...)).values()` deduplication step. -/
def dedupeRanges (l : List MatchRange) : List MatchRange :=
  dedupeAux [] l

/-- The `uniqueMatches.sort((a, b) => a.startIndex - b.startIndex)` step:
a stable sort by `startIndex`. -/
def sortRanges (l : List MatchRange) : List MatchRange :=
  stableSortByKey MatchRange.startIndex l

/-- All matches accumulated by `findTextRange` across the search variants. -/
def allMatchesFor (segs : List TextSegment) (cm : List CharMapping)
    (fullText textToFind : Str) (instanceNum : Nat) : List MatchRange :=
  tryVariants (findValidatedMatches segs cm fullText) instanceNum [] (searchVariants textToFind)

/-- The deduplicated, position-sorted match list of `findTextRange`. -/
def uniqueMatchesFor (segs : List TextSegment) (cm : List CharMapping)
    (fullText textToFind : Str) (instanceNum : Nat) : List MatchRange :=
  sortRanges (dedupeRanges (allMatchesFor segs cm fullText textToFind instanceNum))

/-- Everything `findTextRange` does after a successful fetch of
`body.content`: extract and sort the segments, build the flattened text and
the character map, search the variants, deduplicate, sort, and return the
requested 1-based instance (`uniqueMatches[instance - 1]`; for instance 0 the
JS access `uniqueMatches[-1]` is undefined, i.e. no result). -/
def findTextRangePure (content : List ContentElem) (textToFind : Str) (instanceNum : Nat) :
    Option MatchRange :=
  let segs := sortSegs (extractFromContent content)
  let fullText := buildFullText segs
  let cm := buildCharMap segs
  let uniq := uniqueMatchesFor segs cm fullText textToFind instanceNum
  match instanceNum with
  | 0 => none
  | k + 1 => if k + 1 ≤ uniq.length then uniq.get? k else none

/-- Failure modes of the awaited `docs.documents.get` call, as distinguished
by the `catch` blocks (`error.code === 404`, `error.code === 403`, anything
else). -/
inductive FetchErr where
  | notFound
  | permissionDenied
  | other
deriving DecidableEq

/-- Errors surfaced by the helpers: the two `UserError` translations and the
generic internal `Error`. -/
inductive AppError where
  | userNotFound
  | userPermission
  | internal
deriving DecidableEq

/-- The full `findTextRange`: translate fetch failures exactly as the `catch`
block does (404 → user-facing not-found, 403 → user-facing permission denied,
anything else → internal error), return `null` when the response has no
`body.content`, and otherwise run the pure matching pipeline. -/
def findTextRange (fetch : Except FetchErr (Option (List ContentElem)))
    (textToFind : Str) (instanceNum : Nat) : Except AppError (Option MatchRange) :=
  match fetch with
  | .error .notFound => .error .userNotFound
  | .error .permissionDenied => .error .userPermission
  | .error .other => .error .internal
  | .ok none => .ok none
  | .ok (some content) => .ok (findTextRangePure content textToFind instanceNum)

/-- One `body.content` structural element as fetched by `getParagraphRange`:
optional boundaries, whether a `paragraph` field is present (truthy), and the
table rows (rows → cells → cell content; absent collections collapsed to
`[]`, which the loops treat identically to skipping). -/
inductive StructElem where
  | mk (startIndex endIndex : Option Nat) (isPara : Bool)
       (tableRows : List (List (List StructElem))) : StructElem

mutual
/-- The recursive `findParagraphInContent` closure of `getParagraphRange`:
for each element with both boundaries defined and containing `indexWithin`,
return its range if it is a paragraph, otherwise search its table cells and
return the first hit; in every other case continue with the next element. -/
def findParagraphInContent (iw : Nat) : List StructElem → Option MatchRange
  | [] => none
  | StructElem.mk os oe isPara rows :: rest =>
    match os, oe with
    | some s, some e =>
      if s ≤ iw && iw < e then
        if isPara then some ⟨s, e⟩
        else
          match findParaInRows iw rows with
          | some r => some r
          | none => findParagraphInContent iw rest
      else findParagraphInContent iw rest
    | _, _ => findParagraphInContent iw rest

/-- Rows of a table element, searched in order with early return. -/
def findParaInRows (iw : Nat) : List (List (List StructElem)) → Option MatchRange
  | [] => none
  | r :: rs =>
    match findParaInCells iw r with
    | some res => some res
    | none => findParaInRows iw rs

/-- Cells of one row, searched in order with early return. -/
def findParaInCells (iw : Nat) : List (List StructElem) → Option MatchRange
  | [] => none
  | c :: cs =>
    match findParagraphInContent iw c with
    | some res => some res
    | none => findParaInCells iw cs
end

/-- The full `getParagraphRange`: the same fetch-error translation as
`findTextRange`, `null` without `body.content`, otherwise the recursive
paragraph search. -/
def getParagraphRange (fetch : Except FetchErr (Option (List StructElem)))
    (indexWithin : Nat) : Except AppError (Option MatchRange) :=
  match fetch with
  | .error .notFound => .error .userNotFound
  | .error .permissionDenied => .error .userPermission
  | .error .other => .error .internal
  | .ok none => .ok none
  | .ok (some content) => .ok (findParagraphInContent indexWithin content)

mutual
/-- Modelled from the spec (§4.8, for the refinement claim C8): the list, in
traversal order, of all paragraph-type elements whose half-open boundary
range contains `iw`, recursing into table cells exactly when `iw` falls
inside the table element's own range. -/
def collectParas (iw : Nat) : List StructElem → List MatchRange
  | [] => []
  | StructElem.mk os oe isPara rows :: rest =>
    (match os, oe with
     | some s, some e =>
       if s ≤ iw && iw < e then
         if isPara then [⟨s, e⟩] else collectParasRows iw rows
       else []
     | _, _ => []) ++ collectParas iw rest

/-- Rows part of `collectParas`. -/
def collectParasRows (iw : Nat) : List (List (List StructElem)) → List MatchRange
  | [] => []
  | r :: rs => collectParasCells iw r ++ collectParasRows iw rs

/-- Cells part of `collectParas`. -/
def collectParasCells (iw : Nat) : List (List StructElem) → List MatchRange
  | [] => []
  | c :: cs => collectParas iw c ++ collectParasCells iw cs
end

/-- The ASCII `\w` class of the apostrophe-pattern regexes
(`[A-Za-z0-9_]`; the `i` flag does not change it for non-`u` regexes). -/
def isWordChar (c : Ch) : Bool :=
  (0x30 ≤ c && c ≤ 0x39) || (0x41 ≤ c && c ≤ 0x5A) || (0x61 ≤ c && c ≤ 0x7A) || c == 0x5F

/-- ECMAScript line terminators, the characters `.` does not match
(`dotAll` is off in the apostrophe-pattern regexes). -/
def isLineTerm (c : Ch) : Bool :=
  c == 0x0A || c == 0x0D || c == 0x2028 || c == 0x2029

/-- Case-insensitive match of input code point `c` against the lowercase
pattern letter `p` (the `i` flag of the apostrophe-pattern regexes; the
pattern letters are ASCII, so folding is ASCII uppercase → lowercase). -/
def ciEq (p c : Ch) : Bool :=
  c == p || (0x41 ≤ c && c ≤ 0x5A && (c + 0x20) == p)

/-- Match of the trailing `\s+.+` of an apostrophe pattern against `t`,
returning the matched length: `\s+` first takes the maximal whitespace run,
then backtracks (shortening from the right) until `.+` can match at least one
non-line-terminator character, which it then takes greedily. -/
def wsBacktrack (t : Str) : Nat → Option Nat
  | 0 => none
  | k + 1 =>
    match (t.drop (k + 1)).head? with
    | some c =>
      if !isLineTerm c then
        some ((k + 1) + ((t.drop (k + 1)).takeWhile (fun x => !isLineTerm x)).length)
      else wsBacktrack t k
    | none => wsBacktrack t k

/-- Entry point for `\s+.+`: start the backtracking search from the maximal
whitespace run. -/
def matchWsDot (t : Str) : Option Nat :=
  wsBacktrack t (t.takeWhile isJsWs).length

/-- Consume the required pattern letters case-insensitively (`re`, `ll`, `ve`
have a required first letter; `s?`, `d?`, `t?` have none). -/
def stripCi : List Ch → Str → Option Str
  | [], t => some t
  | p :: ps, c :: t => if ciEq p c then stripCi ps t else none
  | _ :: _, [] => none

/-- Match of a whole group-2 pattern `REQ OPT? \s+ .+` against `t`, returning
the length of the match: the optional letter is greedy (tried first, then
dropped on failure of the rest, as the regex engine backtracks). -/
def matchSuffix (req : List Ch) (opt : Ch) (t : Str) : Option Nat :=
  match stripCi req t with
  | none => none
  | some t1 =>
    match t1 with
    | c :: t2 =>
      if ciEq opt c then
        match matchWsDot t2 with
        | some n => some (req.length + 1 + n)
        | none => (matchWsDot t1).map (fun n => req.length + n)
      else (matchWsDot t1).map (fun n => req.length + n)
    | [] => none

/-- Attempt of one apostrophe pattern `(\w+)[apostrophes](group2)` at start
position `i` of `t`, exactly as the regex engine does: `\w+` greedily takes
the maximal word-character run from `i` (backtracking it cannot help, since
the next required character is a non-word apostrophe), then the apostrophe
class, then the group-2 suffix.  On success, returns (group 1, group 2). -/
def tryPatternAt (req : List Ch) (opt : Ch) (t : Str) (i : Nat) : Option (Str × Str) :=
  let tl := t.drop i
  let run := tl.takeWhile isWordChar
  if run.isEmpty then none
  else
    match (tl.drop run.length).head? with
    | some c =>
      if isApoChar c then
        (matchSuffix req opt (tl.drop (run.length + 1))).map
          (fun n => (run, (tl.drop (run.length + 1)).take n))
      else none
    | none => none

/-- Unanchored leftmost match of one apostrophe pattern against `t`: the
regex engine tries each start position in order and keeps the first
success. -/
def scanPattern (req : List Ch) (opt : Ch) (t : Str) : Option (Str × Str) :=
  (List.range t.length).findSome? (tryPatternAt req opt t)

/-- The `apostrophePatterns` array, reduced to its per-pattern data: required
group-2 letters and the optional letter, for `s?`, `re?`, `ll?`, `ve?`, `d?`,
`t?` in source order. -/
def apoPatterns : List (List Ch × Ch) :=
  [([], 0x73), ([0x72], 0x65), ([0x6C], 0x6C), ([0x76], 0x65), ([], 0x64), ([], 0x74)]

/-- The pattern loop of `highlightApostrophePhrase`: the first pattern that
matches `textToFind` wins, yielding the before/after split. -/
def firstApoPatternMatch (textToFind : Str) : Option (Str × Str) :=
  apoPatterns.findSome? (fun p => scanPattern p.1 p.2 textToFind)

/-- The `highlightApostrophePhrase` helper.  `styleReq` is
`buildUpdateTextStyleRequest`'s result for the style arguments (`none` when no
style field is set); the batch-update executor collaborator is modelled as
succeeding, and every error thrown inside (including fetch failures surfaced
by the inner `findTextRange` calls) is caught by the `catch` block, which
returns `false`.  On a pattern match the two halves are searched at the same
requested instance and success requires two successful highlights; with no
pattern match the whole phrase is searched once. -/
def highlightApostrophePhrase (fetch : Except FetchErr (Option (List ContentElem)))
    (textToFind : Str) (instanceNum : Nat) (styleReq : Option Unit) : Bool :=
  match firstApoPatternMatch textToFind with
  | some (before, after) =>
    match findTextRange fetch before instanceNum with
    | .error _ => false
    | .ok beforeRange =>
      match findTextRange fetch after instanceNum with
      | .error _ => false
      | .ok afterRange =>
        let beforeCount : Nat :=
          match beforeRange, styleReq with
          | some _, some _ => 1
          | _, _ => 0
        let afterCount : Nat :=
          match afterRange, styleReq with
          | some _, some _ => 1
          | _, _ => 0
        2 ≤ beforeCount + afterCount
  | none =>
    match findTextRange fetch textToFind instanceNum with
    | .error _ => false
    | .ok (some _) => styleReq.isSome
    | .ok none => false

/-- Modelled from the spec (§4.4 item 3, for the refinement claim C4): the
prefix of the variant list that the search processes — variants are taken in
order until the running total of their matches reaches the requested
instance. -/
def variantsProcessed (f : Str → List MatchRange) (instanceNum : Nat) : List Str → List Str
  | [] => []
  | v :: vs =>
    v :: (if instanceNum ≤ (f v).length then []
          else variantsProcessed f (instanceNum - (f v).length) vs)

/-! ### Concrete documents and queries used to exercise the definitions -/

/-- Document with the single paragraph text run *hello* at native 1..6. -/
def docHello : List ContentElem :=
  [ContentElem.mk [⟨some [0x68, 0x65, 0x6C, 0x6C, 0x6F], some 1, some 6⟩] []]

/-- Query *ell*. -/
def qEll : Str := [0x65, 0x6C, 0x6C]

/-- Query *l*. -/
def qEl : Str := [0x6C]

/-- Document with text run *don T go* (curly apostrophe U+2019) at 1..9. -/
def docCurly : List ContentElem :=
  [ContentElem.mk [⟨some [0x64, 0x6F, 0x6E, 0x2019, 0x74, 0x20, 0x67, 0x6F], some 1, some 9⟩] []]

/-- Query *don t* with the straight apostrophe U+0027. -/
def qStraight : Str := [0x64, 0x6F, 0x6E, 0x27, 0x74]

/-- Document whose text contains the straight-apostrophe spelling once and the
curly-apostrophe spelling once, at 1..12. -/
def docMixed : List ContentElem :=
  [ContentElem.mk
    [⟨some [0x64, 0x6F, 0x6E, 0x27, 0x74, 0x20, 0x64, 0x6F, 0x6E, 0x2019, 0x74],
      some 1, some 12⟩] []]

/-- Query *don t* with the curly apostrophe U+2019. -/
def qCurly : Str := [0x64, 0x6F, 0x6E, 0x2019, 0x74]

/-- Document with text run *that is more* at 1..13. -/
def docThat : List ContentElem :=
  [ContentElem.mk
    [⟨some [0x74, 0x68, 0x61, 0x74, 0x20, 0x69, 0x73, 0x20, 0x6D, 0x6F, 0x72, 0x65],
      some 1, some 13⟩] []]

/-- Query *that's more* (straight apostrophe). -/
def qThatApo : Str := [0x74, 0x68, 0x61, 0x74, 0x27, 0x73, 0x20, 0x6D, 0x6F, 0x72, 0x65]

/-- The word *that*. -/
def qThat : Str := [0x74, 0x68, 0x61, 0x74]

/-- The fragment *s more*. -/
def qSMore : Str := [0x73, 0x20, 0x6D, 0x6F, 0x72, 0x65]

/-- Structural document: a table at 0..50 whose only cell holds a paragraph at
5..10, followed by a top-level paragraph at 50..60. -/
def sdocPara : List StructElem :=
  [StructElem.mk (some 0) (some 50) false
    [[[StructElem.mk (some 5) (some 10) true []]]],
   StructElem.mk (some 50) (some 60) true []]

/-! ### Lemmas about the normalizer -/

/-- Characters of a canonical string: fixed by the three pointwise
replacements, and whitespace only as the ASCII space. -/
def CanonChar (c : Ch) : Prop :=
  apoTo c = c ∧ quoteTo c = c ∧ dashTo c = c ∧ (isJsWs c = true → c = 0x20)

/-- Fully canonical strings: canonical characters, no two adjacent whitespace
characters, and non-whitespace at both ends.  Every `normalizeText` output is
canonical, and `normalizeText` fixes canonical strings. -/
def CanonStr (s : Str) : Prop :=
  (∀ c ∈ s, CanonChar c) ∧
  List.Chain' (fun a b => ¬(isJsWs a = true ∧ isJsWs b = true)) s ∧
  (∀ c, s.head? = some c → isJsWs c = false) ∧
  (∀ c, s.getLast? = some c → isJsWs c = false)

theorem canonChar_space : CanonChar 0x20 := by
  refine ⟨rfl, rfl, rfl, fun _ => rfl⟩

/-- The composite of the three pointwise replacements always produces a
canonical-replacement character. -/
theorem canonRepl_maps (c : Ch) :
    apoTo (dashTo (quoteTo (apoTo c))) = dashTo (quoteTo (apoTo c)) ∧
    quoteTo (dashTo (quoteTo (apoTo c))) = dashTo (quoteTo (apoTo c)) ∧
    dashTo (dashTo (quoteTo (apoTo c))) = dashTo (quoteTo (apoTo c)) := by
  by_cases h1 : isApoChar c = true
  · have e : apoTo c = 0x27 := by simp [apoTo, h1]
    rw [e]; decide
  · have e1 : apoTo c = c := by simp [apoTo, h1]
    rw [e1]
    by_cases h2 : isQuoteChar c = true
    · have e : quoteTo c = 0x22 := by simp [quoteTo, h2]
      rw [e]; decide
    · have e2 : quoteTo c = c := by simp [quoteTo, h2]
      rw [e2]
      by_cases h3 : isDashChar c = true
      · have e : dashTo c = 0x2D := by simp [dashTo, h3]
        rw [e]; decide
      · have e3 : dashTo c = c := by simp [dashTo, h3]
        rw [e3]
        exact ⟨by simp [apoTo, h1], by simp [quoteTo, h2], by simp [dashTo, h3]⟩

theorem collapseWs_mem : ∀ (s : Str), ∀ c ∈ collapseWs s, c = 0x20 ∨ c ∈ s
  | [] => by simp [collapseWs]
  | [c] => by
    by_cases h : isJsWs c = true <;> simp [collapseWs, h]
  | c :: d :: rest => by
    intro x hx
    rw [collapseWs] at hx
    split at hx
    · rcases collapseWs_mem (d :: rest) x hx with h | h
      · exact Or.inl h
      · exact Or.inr (List.mem_cons_of_mem _ h)
    · rcases List.mem_cons.mp hx with h | h
      · subst h
        by_cases hc : isJsWs c = true
        · simp [hc]
        · simp [hc]
      · rcases collapseWs_mem (d :: rest) x h with h2 | h2
        · exact Or.inl h2
        · exact Or.inr (List.mem_cons_of_mem _ h2)

theorem collapseWs_ws_space : ∀ (s : Str), ∀ c ∈ collapseWs s, isJsWs c = true → c = 0x20
  | [] => by simp [collapseWs]
  | [c] => by
    intro x hx hws
    rw [collapseWs] at hx
    by_cases h : isJsWs c = true
    · rw [if_pos h] at hx
      simpa using hx
    · rw [if_neg h] at hx
      simp only [List.mem_singleton] at hx
      subst hx
      exact absurd hws h
  | c :: d :: rest => by
    intro x hx hws
    rw [collapseWs] at hx
    split at hx
    · exact collapseWs_ws_space (d :: rest) x hx hws
    · rcases List.mem_cons.mp hx with h | h
      · by_cases hc : isJsWs c = true
        · rw [if_pos hc] at h
          exact h
        · rw [if_neg hc] at h
          subst h
          exact absurd hws hc
      · exact collapseWs_ws_space (d :: rest) x h hws

theorem collapseWs_head_not_ws (x : Ch) (xs : Str) (h : isJsWs x = false) :
    (collapseWs (x :: xs)).head? = some x := by
  cases xs with
  | nil =>
    rw [collapseWs, if_neg (by simp [h])]
    rfl
  | cons d rest =>
    rw [collapseWs, if_neg (by simp [h]), if_neg (by simp [h])]
    rfl

theorem collapseWs_chain :
    ∀ (s : Str), List.Chain' (fun a b => ¬(isJsWs a = true ∧ isJsWs b = true)) (collapseWs s)
  | [] => by simp [collapseWs]
  | [c] => by
    rw [collapseWs]
    split <;> simp
  | c :: d :: rest => by
    rw [collapseWs]
    split
    · exact collapseWs_chain (d :: rest)
    · next hnot =>
      rw [List.chain'_cons']
      refine ⟨?_, collapseWs_chain (d :: rest)⟩
      intro y hy
      by_cases hc : isJsWs c = true
      · have hd : isJsWs d = false := by
          cases hdd : isJsWs d
          · rfl
          · exact absurd (by simp [hc, hdd]) hnot
        rw [collapseWs_head_not_ws d rest hd] at hy
        cases hy
        intro hcontra
        rw [hd] at hcontra
        exact Bool.false_ne_true hcontra.2
      · rw [if_neg hc]
        intro hcontra
        exact hc hcontra.1

theorem collapseWs_fixed :
    ∀ (s : Str), (∀ c ∈ s, isJsWs c = true → c = 0x20) →
      List.Chain' (fun a b => ¬(isJsWs a = true ∧ isJsWs b = true)) s → collapseWs s = s
  | [], _, _ => by simp [collapseWs]
  | [c], h1, _ => by
    rw [collapseWs]
    by_cases hc : isJsWs c = true
    · rw [if_pos hc, h1 c (by simp) hc]
    · rw [if_neg hc]
  | c :: d :: rest, h1, h2 => by
    rw [collapseWs]
    have hnot : ¬(isJsWs c = true ∧ isJsWs d = true) := (List.chain'_cons.mp h2).1
    rw [if_neg (by simpa using hnot)]
    have tail := collapseWs_fixed (d :: rest)
      (fun x hx => h1 x (List.mem_cons_of_mem _ hx)) (List.chain'_cons'.mp h2).2
    rw [tail]
    by_cases hc : isJsWs c = true
    · rw [if_pos hc, h1 c (by simp) hc]
    · rw [if_neg hc]

theorem map_nbspTo_fixed (s : Str) (h : ∀ c ∈ s, isJsWs c = true → c = 0x20) :
    s.map nbspTo = s := by
  have : ∀ c ∈ s, nbspTo c = id c := by
    intro c hc
    have : c ≠ 0xA0 := by
      intro e
      subst e
      have := h _ hc (by decide)
      exact absurd this (by decide)
    simp [nbspTo, this]
  rw [List.map_congr_left this, List.map_id]

theorem replaceU2000Seq_fixed (s : Str) (h : 0x2000 ∉ s) : replaceU2000Seq s = s := by
  induction s with
  | nil => rfl
  | cons c rest ih =>
    have hrest : 0x2000 ∉ rest := fun hm => h (List.mem_cons_of_mem _ hm)
    have hc : c ≠ 0x2000 := fun e => h (by rw [e]; exact List.mem_cons_self _ _)
    rw [replaceU2000Seq.eq_2 c rest (fun _ e _ => hc e), ih hrest]

theorem head?_dropWhile_ws_false (l : Str) (c : Ch)
    (h : (l.dropWhile (fun c => isJsWs c)).head? = some c) : isJsWs c = false := by
  have hx := List.head?_dropWhile_not (fun c => isJsWs c) l
  rw [h] at hx
  exact hx

theorem dropWhile_ws_fixed (l : Str) (h : ∀ c, l.head? = some c → isJsWs c = false) :
    l.dropWhile (fun c => isJsWs c) = l := by
  cases l with
  | nil => rfl
  | cons c rest =>
    rw [List.dropWhile_cons, if_neg (by simp [h c rfl])]

theorem getLast?_dropWhile_ws (l : Str) (h : l.dropWhile (fun c => isJsWs c) ≠ []) :
    (l.dropWhile (fun c => isJsWs c)).getLast? = l.getLast? := by
  conv_rhs => rw [← List.takeWhile_append_dropWhile (p := fun c => isJsWs c) (l := l)]
  rw [List.getLast?_append]
  have : (l.dropWhile (fun c => isJsWs c)).getLast?.isSome := by
    rw [List.getLast?_isSome]
    exact h
  cases hg : (l.dropWhile (fun c => isJsWs c)).getLast? with
  | none => rw [hg] at this; exact absurd this (by simp)
  | some x => simp

theorem jsTrim_subset (s : Str) (c : Ch) (h : c ∈ jsTrim s) : c ∈ s := by
  unfold jsTrim at h
  rw [List.mem_reverse] at h
  have h2 := (List.dropWhile_sublist (l := (s.dropWhile (fun c => isJsWs c)).reverse)
    (fun c => isJsWs c)).subset h
  rw [List.mem_reverse] at h2
  exact (List.dropWhile_sublist (l := s) (fun c => isJsWs c)).subset h2

theorem chain'_ws_symm {l : Str}
    (h : List.Chain' (fun a b => ¬(isJsWs a = true ∧ isJsWs b = true)) l) :
    List.Chain' (flip (fun a b => ¬(isJsWs a = true ∧ isJsWs b = true))) l :=
  List.Chain'.imp (fun _ _ hab hc => hab ⟨hc.2, hc.1⟩) h

theorem chain'_ws_dropWhile {l : Str}
    (h : List.Chain' (fun a b => ¬(isJsWs a = true ∧ isJsWs b = true)) l) :
    List.Chain' (fun a b => ¬(isJsWs a = true ∧ isJsWs b = true))
      (l.dropWhile (fun c => isJsWs c)) := by
  rw [← List.takeWhile_append_dropWhile (p := fun c => isJsWs c) (l := l)] at h
  exact (List.chain'_append.mp h).2.1

theorem jsTrim_chain (s : Str)
    (h : List.Chain' (fun a b => ¬(isJsWs a = true ∧ isJsWs b = true)) s) :
    List.Chain' (fun a b => ¬(isJsWs a = true ∧ isJsWs b = true)) (jsTrim s) := by
  unfold jsTrim
  rw [List.chain'_reverse]
  apply chain'_ws_symm
  apply chain'_ws_dropWhile
  rw [List.chain'_reverse]
  exact chain'_ws_symm (chain'_ws_dropWhile h)

theorem jsTrim_head_not_ws (s : Str) (c : Ch) (h : (jsTrim s).head? = some c) :
    isJsWs c = false := by
  unfold jsTrim at h
  rw [List.head?_reverse] at h
  have hne : ((s.dropWhile (fun c => isJsWs c)).reverse.dropWhile (fun c => isJsWs c)) ≠ [] := by
    intro e
    rw [e] at h
    exact Option.noConfusion h
  rw [getLast?_dropWhile_ws _ hne, List.getLast?_reverse] at h
  exact head?_dropWhile_ws_false _ _ h

theorem jsTrim_last_not_ws (s : Str) (c : Ch) (h : (jsTrim s).getLast? = some c) :
    isJsWs c = false := by
  unfold jsTrim at h
  rw [List.getLast?_reverse] at h
  exact head?_dropWhile_ws_false _ _ h

theorem jsTrim_fixed (s : Str)
    (hh : ∀ c, s.head? = some c → isJsWs c = false)
    (hl : ∀ c, s.getLast? = some c → isJsWs c = false) : jsTrim s = s := by
  unfold jsTrim
  rw [dropWhile_ws_fixed s hh, dropWhile_ws_fixed, List.reverse_reverse]
  intro c hc
  rw [List.head?_reverse] at hc
  exact hl c hc

theorem map_fixed {f : Ch → Ch} (s : Str) (h : ∀ c ∈ s, f c = c) : s.map f = s := by
  rw [List.map_congr_left (g := id) h, List.map_id]

theorem normalizeText_eq_trim_collapse (s : Str) :
    normalizeText s = jsTrim (collapseWs (((s.map apoTo).map quoteTo).map dashTo)) := by
  unfold normalizeText
  have h1 := collapseWs_ws_space (((s.map apoTo).map quoteTo).map dashTo)
  rw [map_nbspTo_fixed _ h1, replaceU2000Seq_fixed _ ?_]
  intro hm
  exact absurd (h1 _ hm (by decide)) (by decide)

theorem normalizeText_canon (s : Str) : CanonStr (normalizeText s) := by
  rw [normalizeText_eq_trim_collapse]
  refine ⟨?_, jsTrim_chain _ (collapseWs_chain _), fun c h => jsTrim_head_not_ws _ c h,
    fun c h => jsTrim_last_not_ws _ c h⟩
  intro c hc
  have hmem := jsTrim_subset _ c hc
  have hws : isJsWs c = true → c = 0x20 := collapseWs_ws_space _ c hmem
  rcases collapseWs_mem _ c hmem with h20 | hu
  · subst h20
    exact canonChar_space
  · simp only [List.map_map, List.mem_map] at hu
    obtain ⟨a, _, ha⟩ := hu
    have hr := canonRepl_maps a
    subst ha
    simp only [Function.comp_apply]
    exact ⟨hr.1, hr.2.1, hr.2.2, hws⟩

theorem canonStr_fixed (s : Str) (h : CanonStr s) : normalizeText s = s := by
  obtain ⟨hchars, hchain, hhead, hlast⟩ := h
  rw [normalizeText_eq_trim_collapse,
    map_fixed s (fun c hc => (hchars c hc).1),
    map_fixed s (fun c hc => (hchars c hc).2.1),
    map_fixed s (fun c hc => (hchars c hc).2.2.1),
    collapseWs_fixed s (fun c hc hw => (hchars c hc).2.2.2 hw) hchain]
  exact jsTrim_fixed s hhead hlast

theorem normalizeText_idem (s : Str) : normalizeText (normalizeText s) = normalizeText s :=
  canonStr_fixed _ (normalizeText_canon s)

/-! ### Lemmas about the scan loops -/

theorem occPositions_pairwise (pat text : Str) :
    (occPositions pat text).Pairwise (· < ·) :=
  (List.pairwise_lt_range _).filter _

theorem mem_occPositions {pat text : Str} {i : Nat} :
    i ∈ occPositions pat text ↔ pat <+: text.drop i ∧ i ≤ text.length := by
  unfold occPositions
  rw [List.mem_filter, List.mem_range, List.isPrefixOf_iff_prefix]
  constructor
  · rintro ⟨h1, h2⟩
    exact ⟨h2, by omega⟩
  · rintro ⟨h1, h2⟩
    exact ⟨by omega, h1⟩

theorem mem_occPositions_bound {pat text : Str} {i : Nat}
    (hpat : pat ≠ []) (h : i ∈ occPositions pat text) : i + pat.length ≤ text.length := by
  obtain ⟨hpre, hle⟩ := mem_occPositions.mp h
  have hlen := hpre.length_le
  rw [List.length_drop] at hlen
  have : i < text.length := by
    by_contra hnot
    have : text.drop i = [] := List.drop_eq_nil_of_le (by omega)
    rw [this] at hpre
    exact hpat (List.prefix_nil.mp hpre)
  omega

theorem mem_occPositions_take {pat text : Str} {i : Nat}
    (h : i ∈ occPositions pat text) : (text.drop i).take pat.length = pat := by
  obtain ⟨hpre, _⟩ := mem_occPositions.mp h
  exact (List.prefix_iff_eq_take.mp hpre).symm

theorem jsIndexOf_eq_head_filter (pat text : Str) (si : Nat) :
    jsIndexOf pat text si =
      ((occPositions pat text).filter (fun i => decide (si ≤ i))).head? := by
  unfold jsIndexOf occPositions
  rw [List.filter_filter]

theorem head?_eq_some_mem {l : List Nat} {x : Nat} (h : l.head? = some x) : x ∈ l := by
  cases l with
  | nil => exact Option.noConfusion h
  | cons a t =>
    rw [List.head?_cons, Option.some_inj] at h
    rw [h]
    exact List.mem_cons_self _ _

theorem jsIndexOf_some_facts {pat text : Str} {si fi : Nat}
    (h : jsIndexOf pat text si = some fi) :
    si ≤ fi ∧ fi ∈ occPositions pat text := by
  rw [jsIndexOf_eq_head_filter] at h
  have hm := head?_eq_some_mem h
  rw [List.mem_filter] at hm
  exact ⟨by simpa using hm.2, hm.1⟩

theorem scanLoop_eq (pat text : Str) (hpat : pat ≠ []) :
    ∀ (fuel si : Nat), text.length ≤ fuel + si →
      scanLoop pat text (fuel + 1) si =
        some ((occPositions pat text).filter (fun i => decide (si ≤ i))) := by
  intro fuel
  induction fuel with
  | zero =>
    intro si hle
    have hnone : jsIndexOf pat text si = none := by
      cases hidx : jsIndexOf pat text si with
      | none => rfl
      | some fi =>
        exfalso
        obtain ⟨hsifi, hmem⟩ := jsIndexOf_some_facts hidx
        have hbound := mem_occPositions_bound hpat hmem
        have hlen : 1 ≤ pat.length := List.length_pos.mpr hpat
        omega
    rw [scanLoop, hnone]
    have hfil : (occPositions pat text).filter (fun i => decide (si ≤ i)) = [] := by
      apply List.filter_eq_nil_iff.mpr
      intro x hx
      have hbound := mem_occPositions_bound hpat hx
      have hlen : 1 ≤ pat.length := List.length_pos.mpr hpat
      simp only [decide_eq_true_eq]
      omega
    rw [hfil]
  | succ fuel ih =>
    intro si hle
    cases hidx : jsIndexOf pat text si with
    | none =>
      rw [scanLoop, hidx]
      rw [jsIndexOf_eq_head_filter, List.head?_eq_none_iff] at hidx
      rw [hidx]
    | some fi =>
      obtain ⟨hsifi, hmem⟩ := jsIndexOf_some_facts hidx
      have hbound := mem_occPositions_bound hpat hmem
      have hrec := ih (fi + 1) (by omega)
      have hpair : ((occPositions pat text).filter (fun i => decide (si ≤ i))).Pairwise (· < ·) :=
        (occPositions_pairwise pat text).filter _
      have hhead : ((occPositions pat text).filter (fun i => decide (si ≤ i))).head? = some fi := by
        rw [← jsIndexOf_eq_head_filter]
        exact hidx
      cases hl : (occPositions pat text).filter (fun i => decide (si ≤ i)) with
      | nil =>
        rw [hl] at hhead
        exact Option.noConfusion hhead
      | cons a t =>
        rw [hl] at hhead
        rw [List.head?_cons, Option.some_inj] at hhead
        subst hhead
        have htail : (occPositions pat text).filter (fun i => decide (a + 1 ≤ i)) = t := by
          have h1 : (occPositions pat text).filter (fun i => decide (a + 1 ≤ i)) =
              ((occPositions pat text).filter (fun i => decide (si ≤ i))).filter
                (fun i => decide (a + 1 ≤ i)) := by
            rw [List.filter_filter]
            apply List.filter_congr
            intro i _
            cases hdec : decide (a + 1 ≤ i) with
            | false => simp
            | true =>
              have hfle : a + 1 ≤ i := of_decide_eq_true hdec
              have : si ≤ i := by omega
              simp [this]
          rw [h1, hl, List.filter_cons_of_neg (by simp)]
          rw [hl] at hpair
          apply List.filter_eq_self.mpr
          intro x hx
          have hlt := (List.pairwise_cons.mp hpair).1 x hx
          simpa using hlt
        rw [scanLoop, hidx]
        show Option.map (fun hs => a :: hs) (scanLoop pat text (fuel + 1) (a + 1)) =
          some (a :: t)
        rw [hrec, htail]
        rfl

theorem findAllHits_eq (pat text : Str) (hpat : pat ≠ []) :
    findAllHits pat text = occPositions pat text := by
  unfold findAllHits
  rw [show text.length + 2 = (text.length + 1) + 1 from rfl,
    scanLoop_eq pat text hpat (text.length + 1) 0 (by omega)]
  rw [List.filter_eq_self.mpr (fun x _ => by simp)]
  rfl

/-! ### Lemmas about flattening, the character map, and range extraction -/

/-- Ghost function: the native index recovered for logical position `k` of the
flattened string (`segment.startIndex + charIndex` of the segment containing
`k`). -/
def origAt : List TextSegment → Nat → Nat
  | [], _ => 0
  | s :: rest, k => if k < s.text.length then s.startIndex + k else origAt rest (k - s.text.length)

theorem buildFullText_nil : buildFullText [] = [] := rfl

theorem buildFullText_cons (s : TextSegment) (rest : List TextSegment) :
    buildFullText (s :: rest) = s.text ++ buildFullText rest := by
  simp [buildFullText]

/-- The `originalIndex` components of `charToSegmentMap`, segment by
segment. -/
def origsList (segs : List TextSegment) : List Nat :=
  (segs.map (fun s => (List.range s.text.length).map (fun ci => s.startIndex + ci))).flatten

theorem buildCharMap_orig_aux (g : Nat × TextSegment → List CharMapping)
    (hg : ∀ p, g p = (List.range p.2.text.length).map
      (fun ci => ⟨p.1, ci, p.2.startIndex + ci⟩)) :
    ∀ (segs : List TextSegment) (n : Nat),
      (((segs.enumFrom n).map g).flatten).map CharMapping.originalIndex = origsList segs := by
  intro segs
  induction segs with
  | nil => intro n; rfl
  | cons s rest ih =>
    intro n
    rw [List.enumFrom_cons, List.map_cons, List.flatten_cons, List.map_append, ih (n + 1)]
    unfold origsList
    rw [List.map_cons, List.flatten_cons]
    congr 1
    rw [hg, List.map_map]
    rfl

theorem buildCharMap_orig (segs : List TextSegment) :
    (buildCharMap segs).map CharMapping.originalIndex = origsList segs := by
  unfold buildCharMap
  rw [List.enum]
  exact buildCharMap_orig_aux _ (fun p => rfl) segs 0

theorem origsList_length (segs : List TextSegment) :
    (origsList segs).length = (buildFullText segs).length := by
  induction segs with
  | nil => rfl
  | cons s rest ih =>
    unfold origsList at *
    rw [List.map_cons, List.flatten_cons, buildFullText_cons, List.length_append,
      List.length_append, ih]
    simp

theorem buildCharMap_length (segs : List TextSegment) :
    (buildCharMap segs).length = (buildFullText segs).length := by
  have h := congrArg List.length (buildCharMap_orig segs)
  rw [List.length_map] at h
  rw [h, origsList_length]

theorem origsList_get (segs : List TextSegment) (k : Nat)
    (hk : k < (buildFullText segs).length) : (origsList segs).get? k = some (origAt segs k) := by
  induction segs generalizing k with
  | nil => exact absurd hk (by simp [buildFullText])
  | cons s rest ih =>
    unfold origsList
    rw [List.map_cons, List.flatten_cons]
    by_cases hlt : k < s.text.length
    · rw [List.get?_append (by simpa using hlt)]
      rw [origAt, if_pos hlt]
      simp [hlt]
    · have hlen : ((List.range s.text.length).map (fun ci => s.startIndex + ci)).length ≤ k := by
        simpa using Nat.le_of_not_lt hlt
      rw [List.get?_eq_getElem?, List.getElem?_append_right hlen, ← List.get?_eq_getElem?]
      rw [origAt, if_neg hlt]
      have hk2 : k - s.text.length < (buildFullText rest).length := by
        rw [buildFullText_cons, List.length_append] at hk
        omega
      have := ih (k - s.text.length) hk2
      unfold origsList at this
      simpa using this

theorem buildCharMap_get_orig (segs : List TextSegment) (k : Nat)
    (hk : k < (buildFullText segs).length) :
    ((buildCharMap segs).get? k).map CharMapping.originalIndex = some (origAt segs k) := by
  rw [← origsList_get segs k hk, ← buildCharMap_orig, List.get?_map]

theorem buildCharMap_get_isSome (segs : List TextSegment) (k : Nat)
    (hk : k < (buildFullText segs).length) : ((buildCharMap segs).get? k).isSome := by
  have h := buildCharMap_get_orig segs k hk
  cases hg : (buildCharMap segs).get? k with
  | none => rw [hg] at h; exact Option.noConfusion h
  | some m => rfl

theorem chain_sep_all (s : TextSegment) (rest : List TextSegment)
    (hcons : ∀ x ∈ rest, x.endIndex = x.startIndex + x.text.length)
    (hch : List.Chain' (fun a b => a.endIndex ≤ b.startIndex) (s :: rest)) :
    ∀ r ∈ rest, s.endIndex ≤ r.startIndex := by
  induction rest generalizing s with
  | nil =>
    intro r hr
    cases hr
  | cons r rest' ih =>
    intro x hx
    have h1 : s.endIndex ≤ r.startIndex := (List.chain'_cons.mp hch).1
    rcases List.mem_cons.mp hx with he | hm
    · subst he
      exact h1
    · have hr_cons : r.endIndex = r.startIndex + r.text.length :=
        hcons r (List.mem_cons_self _ _)
      have h2 : r.endIndex ≤ x.startIndex :=
        ih r (fun y hy => hcons y (List.mem_cons_of_mem _ hy)) (List.chain'_cons.mp hch).2 x hm
      omega

theorem origAt_lb (segs : List TextSegment) (x : Nat)
    (hx : ∀ t ∈ segs, x ≤ t.startIndex) :
    ∀ (k : Nat), k < (buildFullText segs).length → x ≤ origAt segs k := by
  induction segs with
  | nil =>
    intro k hk
    simp [buildFullText] at hk
  | cons s rest ih =>
    intro k hk
    rw [origAt]
    by_cases hlt : k < s.text.length
    · rw [if_pos hlt]
      have := hx s (List.mem_cons_self _ _)
      omega
    · rw [if_neg hlt]
      apply ih (fun t ht => hx t (List.mem_cons_of_mem _ ht))
      rw [buildFullText_cons, List.length_append] at hk
      omega

theorem origAt_mono (segs : List TextSegment)
    (hcons : ∀ x ∈ segs, x.endIndex = x.startIndex + x.text.length)
    (hch : List.Chain' (fun a b => a.endIndex ≤ b.startIndex) segs) :
    ∀ (j k : Nat), j < k → k < (buildFullText segs).length →
      origAt segs j < origAt segs k := by
  induction segs with
  | nil =>
    intro j k _ hk
    simp [buildFullText] at hk
  | cons s rest ih =>
    intro j k hjk hk
    rw [buildFullText_cons, List.length_append] at hk
    have hconss := hcons s (List.mem_cons_self _ _)
    have hconsrest : ∀ x ∈ rest, x.endIndex = x.startIndex + x.text.length :=
      fun y hy => hcons y (List.mem_cons_of_mem _ hy)
    simp only [origAt]
    by_cases hks : k < s.text.length
    · rw [if_pos hks, if_pos (by omega)]
      omega
    · rw [if_neg hks]
      have hrestlb : s.endIndex ≤ origAt rest (k - s.text.length) :=
        origAt_lb rest s.endIndex (chain_sep_all s rest hconsrest hch)
          (k - s.text.length) (by omega)
      by_cases hjs : j < s.text.length
      · rw [if_pos hjs]
        omega
      · rw [if_neg hjs]
        exact ih hconsrest (List.chain'_cons'.mp hch).2 (j - s.text.length)
          (k - s.text.length) (by omega) (by omega)

theorem extractTextFromRange_cons (seg : TextSegment) (rest : List TextSegment) (s e : Nat) :
    extractTextFromRange (seg :: rest) s e =
      (if seg.startIndex < e && seg.endIndex > s then
        jsSubstring seg.text (max seg.startIndex s - seg.startIndex)
          (min seg.endIndex e - seg.startIndex)
       else []) ++ extractTextFromRange rest s e := rfl

theorem extractTextFromRange_all_out (segs : List TextSegment) (s e : Nat)
    (h : ∀ seg ∈ segs, ¬(seg.startIndex < e ∧ seg.endIndex > s)) :
    extractTextFromRange segs s e = [] := by
  induction segs with
  | nil => rfl
  | cons seg rest ih =>
    rw [extractTextFromRange_cons, if_neg, ih (fun x hx => h x (List.mem_cons_of_mem _ hx))]
    · rfl
    · intro hcond
      rw [Bool.and_eq_true, decide_eq_true_eq, decide_eq_true_eq] at hcond
      exact h seg (List.mem_cons_self _ _) hcond

theorem jsSubstring_eq_drop_take (t : Str) (a b : Nat) (hab : a ≤ b) (hb : b ≤ t.length) :
    jsSubstring t a b = (t.drop a).take (b - a) := by
  unfold jsSubstring
  dsimp only
  rw [Nat.min_eq_left (le_trans hab hb), Nat.min_eq_left hb, Nat.min_eq_left hab,
    Nat.max_eq_right hab]

theorem extFrom0 (segs : List TextSegment) :
    (∀ x ∈ segs, x.endIndex = x.startIndex + x.text.length) →
    List.Chain' (fun a b => a.endIndex ≤ b.startIndex) segs →
    ∀ (L a : Nat), 1 ≤ L → L ≤ (buildFullText segs).length → a ≤ origAt segs 0 →
      extractTextFromRange segs a (origAt segs (L - 1) + 1) = (buildFullText segs).take L := by
  induction segs with
  | nil =>
    intro _ _ L a hL hLt _
    rw [buildFullText_nil] at hLt
    simp at hLt
    omega
  | cons s rest ih =>
    intro hcons hch L a hL hLt ha
    have hconss := hcons s (List.mem_cons_self _ _)
    have hconsrest : ∀ x ∈ rest, x.endIndex = x.startIndex + x.text.length :=
      fun y hy => hcons y (List.mem_cons_of_mem _ hy)
    have hchrest : List.Chain' (fun a b => a.endIndex ≤ b.startIndex) rest :=
      (List.chain'_cons'.mp hch).2
    by_cases hlen0 : s.text = []
    · have h0 : s.text.length = 0 := by rw [hlen0]; rfl
      have horig : ∀ k, origAt (s :: rest) k = origAt rest k := by
        intro k
        rw [origAt, if_neg (by omega)]
        congr 1
        omega
      have hft : buildFullText (s :: rest) = buildFullText rest := by
        rw [buildFullText_cons, hlen0, List.nil_append]
      rw [extractTextFromRange_cons]
      have hcontrib :
          (if s.startIndex < origAt (s :: rest) (L - 1) + 1 && s.endIndex > a then
            jsSubstring s.text (max s.startIndex a - s.startIndex)
              (min s.endIndex (origAt (s :: rest) (L - 1) + 1) - s.startIndex)
           else []) = [] := by
        rw [hlen0]
        split <;> simp [jsSubstring]
      rw [hcontrib, List.nil_append, horig (L - 1), hft]
      rw [hft] at hLt
      rw [horig 0] at ha
      exact ih hconsrest hchrest L a hL hLt ha
    · have hlen : 1 ≤ s.text.length := List.length_pos.mpr hlen0
      have horig0 : origAt (s :: rest) 0 = s.startIndex := by
        rw [origAt, if_pos (by omega), Nat.add_zero]
      rw [horig0] at ha
      rw [buildFullText_cons, List.length_append] at hLt
      by_cases hLlen : L ≤ s.text.length
      · have horigL : origAt (s :: rest) (L - 1) = s.startIndex + (L - 1) := by
          rw [origAt, if_pos (by omega)]
        rw [horigL, show s.startIndex + (L - 1) + 1 = s.startIndex + L from by omega]
        rw [extractTextFromRange_cons]
        have hcond : (s.startIndex < s.startIndex + L && s.endIndex > a) = true := by
          rw [Bool.and_eq_true, decide_eq_true_eq, decide_eq_true_eq]
          exact ⟨by omega, by omega⟩
        rw [if_pos hcond]
        have hrest0 : extractTextFromRange rest a (s.startIndex + L) = [] := by
          apply extractTextFromRange_all_out
          intro seg hseg
          have hsep := chain_sep_all s rest hconsrest hch seg hseg
          intro hc
          omega
        rw [hrest0, List.append_nil]
        rw [show max s.startIndex a - s.startIndex = 0 from by omega,
          show min s.endIndex (s.startIndex + L) - s.startIndex = L from by omega]
        rw [jsSubstring_eq_drop_take s.text 0 L (by omega) (by omega), List.drop_zero,
          Nat.sub_zero]
        rw [buildFullText_cons, List.take_append_eq_append_take,
          Nat.sub_eq_zero_of_le hLlen, List.take_zero, List.append_nil]
      · have hLgt : s.text.length < L := by omega
        have horigL : origAt (s :: rest) (L - 1) = origAt rest (L - 1 - s.text.length) := by
          rw [origAt, if_neg (by omega)]
        have hLt' : L - s.text.length ≤ (buildFullText rest).length := by omega
        have h1L' : 1 ≤ L - s.text.length := by omega
        have hft0 : 0 < (buildFullText rest).length := by omega
        have hsep := chain_sep_all s rest hconsrest hch
        have hlb : s.endIndex ≤ origAt rest 0 := origAt_lb rest s.endIndex hsep 0 hft0
        have hlbL : s.endIndex ≤ origAt rest (L - 1 - s.text.length) :=
          origAt_lb rest s.endIndex hsep _ (by omega)
        rw [horigL, extractTextFromRange_cons]
        have hcond :
            (s.startIndex < origAt rest (L - 1 - s.text.length) + 1 && s.endIndex > a) = true := by
          rw [Bool.and_eq_true, decide_eq_true_eq, decide_eq_true_eq]
          exact ⟨by omega, by omega⟩
        rw [if_pos hcond]
        rw [show max s.startIndex a - s.startIndex = 0 from by omega,
          show min s.endIndex (origAt rest (L - 1 - s.text.length) + 1) - s.startIndex
            = s.text.length from by omega]
        rw [jsSubstring_eq_drop_take s.text 0 s.text.length (by omega) (by omega),
          List.drop_zero, Nat.sub_zero, List.take_length]
        have hrec := ih hconsrest hchrest (L - s.text.length) a h1L' hLt' (by omega)
        rw [show L - s.text.length - 1 = L - 1 - s.text.length from by omega] at hrec
        rw [hrec]
        rw [buildFullText_cons, List.take_append_eq_append_take,
          show List.take L s.text = s.text from List.take_all_of_le (by omega)]

theorem extGen (segs : List TextSegment) :
    (∀ x ∈ segs, x.endIndex = x.startIndex + x.text.length) →
    List.Chain' (fun a b => a.endIndex ≤ b.startIndex) segs →
    ∀ (fi L : Nat), 1 ≤ L → fi + L ≤ (buildFullText segs).length →
      extractTextFromRange segs (origAt segs fi) (origAt segs (fi + L - 1) + 1) =
        ((buildFullText segs).drop fi).take L := by
  induction segs with
  | nil =>
    intro _ _ fi L hL hfiL
    rw [buildFullText_nil] at hfiL
    simp at hfiL
    omega
  | cons s rest ih =>
    intro hcons hch fi L hL hfiL
    have hconss := hcons s (List.mem_cons_self _ _)
    have hconsrest : ∀ x ∈ rest, x.endIndex = x.startIndex + x.text.length :=
      fun y hy => hcons y (List.mem_cons_of_mem _ hy)
    have hchrest : List.Chain' (fun a b => a.endIndex ≤ b.startIndex) rest :=
      (List.chain'_cons'.mp hch).2
    have hsep := chain_sep_all s rest hconsrest hch
    rw [buildFullText_cons, List.length_append] at hfiL
    by_cases hfis : fi < s.text.length
    · have hlen : 1 ≤ s.text.length := by omega
      have horigfi : origAt (s :: rest) fi = s.startIndex + fi := by
        rw [origAt, if_pos hfis]
      by_cases hfiLs : fi + L ≤ s.text.length
      · have horigL : origAt (s :: rest) (fi + L - 1) = s.startIndex + (fi + L - 1) := by
          rw [origAt, if_pos (by omega)]
        rw [horigfi, horigL,
          show s.startIndex + (fi + L - 1) + 1 = s.startIndex + (fi + L) from by omega]
        rw [extractTextFromRange_cons]
        have hcond : (s.startIndex < s.startIndex + (fi + L) &&
            s.endIndex > s.startIndex + fi) = true := by
          rw [Bool.and_eq_true, decide_eq_true_eq, decide_eq_true_eq]
          exact ⟨by omega, by omega⟩
        rw [if_pos hcond]
        have hrest0 : extractTextFromRange rest (s.startIndex + fi)
            (s.startIndex + (fi + L)) = [] := by
          apply extractTextFromRange_all_out
          intro seg hseg
          have := hsep seg hseg
          intro hc
          omega
        rw [hrest0, List.append_nil]
        rw [show max s.startIndex (s.startIndex + fi) - s.startIndex = fi from by omega,
          show min s.endIndex (s.startIndex + (fi + L)) - s.startIndex = fi + L from by omega]
        rw [jsSubstring_eq_drop_take s.text fi (fi + L) (by omega) (by omega)]
        rw [show fi + L - fi = L from by omega]
        rw [buildFullText_cons, List.drop_append_eq_append_drop,
          show fi - s.text.length = 0 from by omega, List.drop_zero,
          List.take_append_eq_append_take]
        rw [show L - (s.text.drop fi).length = 0 from by rw [List.length_drop]; omega,
          List.take_zero, List.append_nil]
      · have horigL : origAt (s :: rest) (fi + L - 1) =
            origAt rest (fi + L - 1 - s.text.length) := by
          rw [origAt, if_neg (by omega)]
        have hL2 : 1 ≤ fi + L - s.text.length := by omega
        have hLt2 : fi + L - s.text.length ≤ (buildFullText rest).length := by omega
        have hft0 : 0 < (buildFullText rest).length := by omega
        have hlb : s.endIndex ≤ origAt rest 0 := origAt_lb rest s.endIndex hsep 0 hft0
        have hlbL : s.endIndex ≤ origAt rest (fi + L - 1 - s.text.length) :=
          origAt_lb rest s.endIndex hsep _ (by omega)
        rw [horigfi, horigL, extractTextFromRange_cons]
        have hcond : (s.startIndex < origAt rest (fi + L - 1 - s.text.length) + 1 &&
            s.endIndex > s.startIndex + fi) = true := by
          rw [Bool.and_eq_true, decide_eq_true_eq, decide_eq_true_eq]
          exact ⟨by omega, by omega⟩
        rw [if_pos hcond]
        rw [show max s.startIndex (s.startIndex + fi) - s.startIndex = fi from by omega,
          show min s.endIndex (origAt rest (fi + L - 1 - s.text.length) + 1) - s.startIndex
            = s.text.length from by omega]
        rw [jsSubstring_eq_drop_take s.text fi s.text.length (by omega) (by omega)]
        rw [show (s.text.drop fi).take (s.text.length - fi) = s.text.drop fi from
          List.take_all_of_le (by rw [List.length_drop])]
        have hrec := extFrom0 rest hconsrest hchrest (fi + L - s.text.length)
          (s.startIndex + fi) hL2 hLt2 (by omega)
        rw [show fi + L - s.text.length - 1 = fi + L - 1 - s.text.length from by omega] at hrec
        rw [hrec]
        rw [buildFullText_cons, List.drop_append_eq_append_drop,
          show fi - s.text.length = 0 from by omega, List.drop_zero,
          List.take_append_eq_append_take]
        rw [show (s.text.drop fi).take L = s.text.drop fi from
          List.take_all_of_le (by rw [List.length_drop]; omega)]
        rw [List.length_drop]
        rw [show L - (s.text.length - fi) = fi + L - s.text.length from by omega]
    · have horigfi : origAt (s :: rest) fi = origAt rest (fi - s.text.length) := by
        rw [origAt, if_neg (by omega)]
      have horigL : origAt (s :: rest) (fi + L - 1) =
          origAt rest (fi - s.text.length + L - 1) := by
        rw [origAt, if_neg (by omega)]
        rw [show fi + L - 1 - s.text.length = fi - s.text.length + L - 1 from by omega]
      have hlb2 : s.endIndex ≤ origAt rest (fi - s.text.length) :=
        origAt_lb rest s.endIndex hsep _ (by omega)
      rw [horigfi, horigL, extractTextFromRange_cons]
      rw [if_neg ?hcond]
      case hcond =>
        intro hc
        rw [Bool.and_eq_true, decide_eq_true_eq, decide_eq_true_eq] at hc
        omega
      rw [List.nil_append]
      have hrec := ih hconsrest hchrest (fi - s.text.length) L hL (by omega)
      rw [hrec]
      rw [buildFullText_cons, List.drop_append_eq_append_drop,
        show s.text.drop fi = [] from List.drop_eq_nil_of_le (by omega), List.nil_append]

/-! ### Lemmas about the match pipeline  -/

theorem filterMap_eq_map_of {α β : Type} (l : List α) (f : α → Option β) (g : α → β)
    (h : ∀ x ∈ l, f x = some (g x)) : l.filterMap f = l.map g := by
  induction l with
  | nil => rfl
  | cons a t ih =>
    rw [List.filterMap_cons, h a (List.mem_cons_self _ _), List.map_cons,
      ih (fun x hx => h x (List.mem_cons_of_mem _ hx))]

theorem exactPassMatches_eq (segs : List TextSegment) (pat : Str) (hpat : pat ≠ []) :
    exactPassMatches (buildCharMap segs) (buildFullText segs) pat =
      (occPositions pat (buildFullText segs)).map
        (fun fi => ⟨origAt segs fi, origAt segs (fi + pat.length - 1) + 1⟩) := by
  unfold exactPassMatches
  rw [findAllHits_eq _ _ hpat]
  apply filterMap_eq_map_of
  intro fi hfi
  have hb := mem_occPositions_bound hpat hfi
  have hp1 : 1 ≤ pat.length := List.length_pos.mpr hpat
  have h1 : fi < (buildFullText segs).length := by omega
  have h2 : fi + pat.length - 1 < (buildFullText segs).length := by omega
  cases hs : (buildCharMap segs).get? fi with
  | none =>
    have := buildCharMap_get_orig segs fi h1
    rw [hs] at this
    exact Option.noConfusion this
  | some sm =>
    cases he : (buildCharMap segs).get? (fi + pat.length - 1) with
    | none =>
      have := buildCharMap_get_orig segs _ h2
      rw [he] at this
      exact Option.noConfusion this
    | some em =>
      have hso := buildCharMap_get_orig segs fi h1
      have heo := buildCharMap_get_orig segs _ h2
      rw [hs] at hso
      rw [he] at heo
      simp only [Option.map_some'] at hso heo
      rw [Option.some_inj] at hso heo
      simp only []
      rw [hso, heo]

theorem dedupeAux_id (l : List MatchRange) :
    ∀ (seen : List MatchRange), l.Pairwise (· ≠ ·) → (∀ x ∈ l, x ∉ seen) →
      dedupeAux seen l = l := by
  induction l with
  | nil => intro seen _ _; rfl
  | cons r rs ih =>
    intro seen hp hs
    rw [dedupeAux, if_neg (hs r (List.mem_cons_self _ _))]
    congr 1
    apply ih (r :: seen) (List.pairwise_cons.mp hp).2
    intro x hx
    intro hmem
    rcases List.mem_cons.mp hmem with he | hseen
    · exact (List.pairwise_cons.mp hp).1 x hx he.symm
    · exact hs x (List.mem_cons_of_mem _ hx) hseen

theorem dedupeRanges_id (l : List MatchRange) (hp : l.Pairwise (· ≠ ·)) :
    dedupeRanges l = l :=
  dedupeAux_id l [] hp (fun x _ h => (List.not_mem_nil x) h)

theorem dedupeAux_all_seen (l : List MatchRange) :
    ∀ (seen : List MatchRange), (∀ x ∈ l, x ∈ seen) → dedupeAux seen l = [] := by
  induction l with
  | nil => intro seen _; rfl
  | cons r rs ih =>
    intro seen h
    rw [dedupeAux, if_pos (h r (List.mem_cons_self _ _))]
    exact ih seen (fun x hx => h x (List.mem_cons_of_mem _ hx))

theorem dedupeAux_append_copy (M : List MatchRange) :
    ∀ (seen N : List MatchRange), M.Pairwise (· ≠ ·) → (∀ x ∈ M, x ∉ seen) →
      (∀ x ∈ N, x ∈ M ∨ x ∈ seen) → dedupeAux seen (M ++ N) = M := by
  induction M with
  | nil =>
    intro seen N _ _ hN
    rw [List.nil_append]
    apply dedupeAux_all_seen
    intro x hx
    rcases hN x hx with h | h
    · exact absurd h (List.not_mem_nil x)
    · exact h
  | cons r rs ih =>
    intro seen N hp hs hN
    rw [List.cons_append, dedupeAux, if_neg (hs r (List.mem_cons_self _ _))]
    congr 1
    apply ih (r :: seen) N (List.pairwise_cons.mp hp).2
    · intro x hx hmem
      rcases List.mem_cons.mp hmem with he | hseen
      · exact (List.pairwise_cons.mp hp).1 x hx he.symm
      · exact hs x (List.mem_cons_of_mem _ hx) hseen
    · intro x hx
      rcases hN x hx with h | h
      · rcases List.mem_cons.mp h with he | hm
        · exact Or.inr (by rw [he]; exact List.mem_cons_self _ _)
        · exact Or.inl hm
      · exact Or.inr (List.mem_cons_of_mem _ h)

theorem dedupeRanges_doubled (M : List MatchRange) (hp : M.Pairwise (· ≠ ·)) :
    dedupeRanges (M ++ M) = M :=
  dedupeAux_append_copy M [] M hp (fun x _ h => (List.not_mem_nil x) h)
    (fun x hx => Or.inl hx)

theorem stableSortByKey_id {α : Type} (key : α → Nat) (l : List α)
    (h : l.Pairwise (fun a b => key a ≤ key b)) : stableSortByKey key l = l := by
  induction l with
  | nil => rfl
  | cons a t ih =>
    have htail := ih (List.pairwise_cons.mp h).2
    unfold stableSortByKey at htail ⊢
    rw [List.foldr_cons, htail]
    cases t with
    | nil => rfl
    | cons x xs =>
      rw [insertByKey, if_pos ((List.pairwise_cons.mp h).1 x (List.mem_cons_self _ _))]

theorem sortRanges_id (l : List MatchRange)
    (h : l.Pairwise (fun a b => a.startIndex ≤ b.startIndex)) : sortRanges l = l :=
  stableSortByKey_id _ l h

theorem tryVariants_stop (f : Str → List MatchRange) (inst : Nat) (acc : List MatchRange)
    (v : Str) (vs : List Str) (h : inst ≤ (acc ++ f v).length) :
    tryVariants f inst acc (v :: vs) = acc ++ f v := by
  rw [tryVariants, if_pos h]

theorem tryVariants_go (f : Str → List MatchRange) (inst : Nat) (acc : List MatchRange)
    (v : Str) (vs : List Str) (h : ¬(inst ≤ (acc ++ f v).length)) :
    tryVariants f inst acc (v :: vs) = tryVariants f inst (acc ++ f v) vs := by
  rw [tryVariants, if_neg h]

theorem findValidatedMatches_of_exact_ne (segs : List TextSegment) (cm : List CharMapping)
    (fullText searchText : Str) (h : exactPassMatches cm fullText searchText ≠ []) :
    findValidatedMatches segs cm fullText searchText =
      exactPassMatches cm fullText searchText := by
  unfold findValidatedMatches
  rw [if_neg (by simpa using h)]

theorem findValidatedMatches_of_exact_nil (segs : List TextSegment) (cm : List CharMapping)
    (fullText searchText : Str) (h : exactPassMatches cm fullText searchText = []) :
    findValidatedMatches segs cm fullText searchText =
      normPassMatches segs cm fullText (normalizeText searchText) := by
  unfold findValidatedMatches
  rw [if_pos (by simpa using h)]

/-- The native range the exact pass produces for the hit at logical
position `fi`. -/
def rangeOfHit (segs : List TextSegment) (patLen fi : Nat) : MatchRange :=
  ⟨origAt segs fi, origAt segs (fi + patLen - 1) + 1⟩

theorem rangeOfHit_mono (segs : List TextSegment) (q : Str)
    (hq : q ≠ [])
    (hcons : ∀ x ∈ segs, x.endIndex = x.startIndex + x.text.length)
    (hch : List.Chain' (fun a b => a.endIndex ≤ b.startIndex) segs) :
    ((occPositions q (buildFullText segs)).map (rangeOfHit segs q.length)).Pairwise
      (fun r r2 => r.startIndex < r2.startIndex) := by
  rw [List.pairwise_map]
  apply (occPositions_pairwise q (buildFullText segs)).imp_of_mem
  intro a b _ hb hab
  have hbb := mem_occPositions_bound hq hb
  have hq1 : 1 ≤ q.length := List.length_pos.mpr hq
  exact origAt_mono segs hcons hch a b hab (by omega)

theorem uniqueMatches_exact_case (segs : List TextSegment) (q : Str) (inst : Nat)
    (hq : q ≠ [])
    (hcons : ∀ x ∈ segs, x.endIndex = x.startIndex + x.text.length)
    (hch : List.Chain' (fun a b => a.endIndex ≤ b.startIndex) segs)
    (hN1 : 1 ≤ (occPositions q (buildFullText segs)).length)
    (hinstN : inst ≤ (occPositions q (buildFullText segs)).length) :
    uniqueMatchesFor segs (buildCharMap segs) (buildFullText segs) q inst =
      (occPositions q (buildFullText segs)).map (rangeOfHit segs q.length) := by
  have hM : exactPassMatches (buildCharMap segs) (buildFullText segs) q =
      (occPositions q (buildFullText segs)).map (rangeOfHit segs q.length) :=
    exactPassMatches_eq segs q hq
  have hMne : (occPositions q (buildFullText segs)).map (rangeOfHit segs q.length) ≠ [] := by
    intro he
    have hlen := congrArg List.length he
    rw [List.length_map, List.length_nil] at hlen
    omega
  have hfvm : findValidatedMatches segs (buildCharMap segs) (buildFullText segs) q =
      (occPositions q (buildFullText segs)).map (rangeOfHit segs q.length) := by
    rw [findValidatedMatches_of_exact_ne _ _ _ _ (by rw [hM]; exact hMne), hM]
  have hall : allMatchesFor segs (buildCharMap segs) (buildFullText segs) q inst =
      (occPositions q (buildFullText segs)).map (rangeOfHit segs q.length) := by
    unfold allMatchesFor
    unfold searchVariants
    rw [tryVariants_stop]
    · rw [List.nil_append, hfvm]
    · rw [List.nil_append, hfvm, List.length_map]
      exact hinstN
  have hmono := rangeOfHit_mono segs q hq hcons hch
  unfold uniqueMatchesFor
  rw [hall]
  rw [dedupeRanges_id _ (hmono.imp (fun hlt he => by rw [he] at hlt; omega))]
  exact sortRanges_id _ (hmono.imp (fun hlt => Nat.le_of_lt hlt))

theorem findTextRangePure_exact_case (content : List ContentElem) (q : Str) (inst : Nat)
    (hq : q ≠ [])
    (hcons : ∀ x ∈ sortSegs (extractFromContent content),
      x.endIndex = x.startIndex + x.text.length)
    (hch : List.Chain' (fun a b => a.endIndex ≤ b.startIndex)
      (sortSegs (extractFromContent content)))
    (hinst1 : 1 ≤ inst)
    (hinstN : inst ≤ (occPositions q
      (buildFullText (sortSegs (extractFromContent content)))).length) :
    findTextRangePure content q inst =
      ((occPositions q (buildFullText (sortSegs (extractFromContent content)))).map
        (rangeOfHit (sortSegs (extractFromContent content)) q.length)).get? (inst - 1) := by
  cases inst with
  | zero => omega
  | succ k =>
    show (if k + 1 ≤ (uniqueMatchesFor (sortSegs (extractFromContent content))
        (buildCharMap (sortSegs (extractFromContent content)))
        (buildFullText (sortSegs (extractFromContent content))) q (k + 1)).length then
        (uniqueMatchesFor (sortSegs (extractFromContent content))
          (buildCharMap (sortSegs (extractFromContent content)))
          (buildFullText (sortSegs (extractFromContent content))) q (k + 1)).get? k
      else none) = _
    rw [uniqueMatches_exact_case _ _ _ hq hcons hch (by omega) hinstN]
    rw [if_pos (by rw [List.length_map]; exact hinstN)]
    rfl

theorem uniqueMatches_over_instance (segs : List TextSegment) (q : Str)
    (hq : q ≠ [])
    (hcons : ∀ x ∈ segs, x.endIndex = x.startIndex + x.text.length)
    (hch : List.Chain' (fun a b => a.endIndex ≤ b.startIndex) segs)
    (hfix1 : normalizeText q = q) (hfix2 : apoStd q = q)
    (hN1 : 1 ≤ (occPositions q (buildFullText segs)).length) :
    uniqueMatchesFor segs (buildCharMap segs) (buildFullText segs) q
      ((occPositions q (buildFullText segs)).length + 1) =
      (occPositions q (buildFullText segs)).map (rangeOfHit segs q.length) := by
  have hM : exactPassMatches (buildCharMap segs) (buildFullText segs) q =
      (occPositions q (buildFullText segs)).map (rangeOfHit segs q.length) :=
    exactPassMatches_eq segs q hq
  have hMlen : ((occPositions q (buildFullText segs)).map (rangeOfHit segs q.length)).length =
      (occPositions q (buildFullText segs)).length := List.length_map _ _
  have hMne : (occPositions q (buildFullText segs)).map (rangeOfHit segs q.length) ≠ [] := by
    intro he
    have hlen := congrArg List.length he
    rw [hMlen, List.length_nil] at hlen
    omega
  have hfvm : findValidatedMatches segs (buildCharMap segs) (buildFullText segs) q =
      (occPositions q (buildFullText segs)).map (rangeOfHit segs q.length) := by
    rw [findValidatedMatches_of_exact_ne _ _ _ _ (by rw [hM]; exact hMne), hM]
  have hmono := rangeOfHit_mono segs q hq hcons hch
  have hne : ((occPositions q (buildFullText segs)).map
      (rangeOfHit segs q.length)).Pairwise (· ≠ ·) :=
    hmono.imp (fun hlt he => by rw [he] at hlt; omega)
  have hnot : ¬((occPositions q (buildFullText segs)).length + 1 ≤
      (([] : List MatchRange) ++
        findValidatedMatches segs (buildCharMap segs) (buildFullText segs) q).length) := by
    rw [List.nil_append, hfvm, hMlen]
    omega
  have hstep1 := tryVariants_go
    (findValidatedMatches segs (buildCharMap segs) (buildFullText segs))
    ((occPositions q (buildFullText segs)).length + 1) [] q [q, q] hnot
  have hstop : ((occPositions q (buildFullText segs)).length + 1 ≤
      ((([] : List MatchRange) ++
        findValidatedMatches segs (buildCharMap segs) (buildFullText segs) q) ++
        findValidatedMatches segs (buildCharMap segs) (buildFullText segs) q).length) := by
    rw [List.nil_append, List.length_append, hfvm, hMlen]
    omega
  have hstep2 := tryVariants_stop
    (findValidatedMatches segs (buildCharMap segs) (buildFullText segs))
    ((occPositions q (buildFullText segs)).length + 1)
    (([] : List MatchRange) ++
      findValidatedMatches segs (buildCharMap segs) (buildFullText segs) q) q [q] hstop
  have hall : allMatchesFor segs (buildCharMap segs) (buildFullText segs) q
      ((occPositions q (buildFullText segs)).length + 1) =
      ((occPositions q (buildFullText segs)).map (rangeOfHit segs q.length)) ++
      ((occPositions q (buildFullText segs)).map (rangeOfHit segs q.length)) := by
    unfold allMatchesFor
    unfold searchVariants
    rw [hfix1, hfix2, hstep1, hstep2, List.nil_append, hfvm]
  unfold uniqueMatchesFor
  rw [hall, dedupeRanges_doubled _ hne]
  exact sortRanges_id _ (hmono.imp (fun hlt => Nat.le_of_lt hlt))

theorem findTextRangePure_over_instance (content : List ContentElem) (q : Str)
    (hq : q ≠ [])
    (hcons : ∀ x ∈ sortSegs (extractFromContent content),
      x.endIndex = x.startIndex + x.text.length)
    (hch : List.Chain' (fun a b => a.endIndex ≤ b.startIndex)
      (sortSegs (extractFromContent content)))
    (hfix1 : normalizeText q = q) (hfix2 : apoStd q = q)
    (hN1 : 1 ≤ (occPositions q
      (buildFullText (sortSegs (extractFromContent content)))).length) :
    findTextRangePure content q
      ((occPositions q (buildFullText (sortSegs (extractFromContent content)))).length + 1)
      = none := by
  have huniq := uniqueMatches_over_instance (sortSegs (extractFromContent content)) q hq
    hcons hch hfix1 hfix2 hN1
  unfold findTextRangePure
  show (match (occPositions q
      (buildFullText (sortSegs (extractFromContent content)))).length + 1 with
    | 0 => none
    | k + 1 => if k + 1 ≤ (uniqueMatchesFor (sortSegs (extractFromContent content))
        (buildCharMap (sortSegs (extractFromContent content)))
        (buildFullText (sortSegs (extractFromContent content))) q
        ((occPositions q
          (buildFullText (sortSegs (extractFromContent content)))).length + 1)).length
      then (uniqueMatchesFor (sortSegs (extractFromContent content))
        (buildCharMap (sortSegs (extractFromContent content)))
        (buildFullText (sortSegs (extractFromContent content))) q
        ((occPositions q
          (buildFullText (sortSegs (extractFromContent content)))).length + 1)).get? k
      else none) = none
  rw [huniq]
  show (if (occPositions q (buildFullText (sortSegs (extractFromContent content)))).length + 1 ≤
      ((occPositions q (buildFullText (sortSegs (extractFromContent content)))).map
        (rangeOfHit (sortSegs (extractFromContent content)) q.length)).length
    then ((occPositions q (buildFullText (sortSegs (extractFromContent content)))).map
        (rangeOfHit (sortSegs (extractFromContent content)) q.length)).get?
        (occPositions q (buildFullText (sortSegs (extractFromContent content)))).length
    else none) = none
  rw [if_neg (by rw [List.length_map]; omega)]

/-! ### Round-trip validation of the normalized pass (C2) -/

theorem normPassMatches_roundtrip (segs : List TextSegment) (cm : List CharMapping)
    (fullText nq : Str) (r : MatchRange) (h : r ∈ normPassMatches segs cm fullText nq) :
    normalizeText (extractTextFromRange segs r.startIndex r.endIndex) = nq := by
  unfold normPassMatches at h
  rw [List.mem_filterMap] at h
  obtain ⟨fi, _, hc⟩ := h
  simp only [normCandidate] at hc
  split at hc
  · next sm em hs he =>
    split at hc
    · next hvalid =>
      rw [Option.some_inj] at hc
      rw [← hc]
      exact hvalid
    · exact Option.noConfusion hc
  · exact Option.noConfusion hc

/-! ### Variant ordering and early stop (C4) -/

theorem tryVariants_eq_processed (f : Str → List MatchRange) :
    ∀ (vs : List Str) (inst : Nat) (acc : List MatchRange),
      tryVariants f inst acc vs =
        acc ++ (variantsProcessed f (inst - acc.length) vs).flatMap f := by
  intro vs
  induction vs with
  | nil =>
    intro inst acc
    rw [tryVariants, variantsProcessed]
    simp
  | cons v vs ih =>
    intro inst acc
    rw [tryVariants, variantsProcessed]
    by_cases hstop : inst ≤ (acc ++ f v).length
    · rw [if_pos hstop, if_pos (by rw [List.length_append] at hstop; omega)]
      simp
    · rw [if_neg hstop, if_neg (by rw [List.length_append] at hstop; omega)]
      rw [ih inst (acc ++ f v)]
      rw [List.flatMap_cons, List.length_append]
      rw [show inst - acc.length - (f v).length = inst - (acc.length + (f v).length) from
        by omega]
      rw [List.append_assoc]

/-! ### Fuel sufficiency for the scan loops (C10) -/

theorem scanLoop_terminates (pat text : Str) (hpat : pat ≠ []) (si : Nat) :
    (scanLoop pat text (text.length + 1) si).isSome := by
  rw [scanLoop_eq pat text hpat text.length si (by omega)]
  rfl

theorem apoTo_apoTo (c : Ch) : apoTo (apoTo c) = apoTo c := by
  by_cases h : isApoChar c = true
  · have e : apoTo c = 0x27 := by simp [apoTo, h]
    rw [e]
    decide
  · have e : apoTo c = c := by simp [apoTo, h]
    rw [e, e]

theorem normalizeText_apoStd (q : Str) : normalizeText (apoStd q) = normalizeText q := by
  unfold normalizeText apoStd
  have hinner : (q.map apoTo).map apoTo = q.map apoTo := by
    rw [List.map_map]
    exact List.map_congr_left (fun c _ => apoTo_apoTo c)
  rw [hinner]

theorem apoStd_length (q : Str) : (apoStd q).length = q.length := List.length_map _ _

/-! ### Insufficient matches return null without throwing (C5) -/

theorem findTextRangePure_insufficient (content : List ContentElem) (q : Str) (inst : Nat)
    (h : (uniqueMatchesFor (sortSegs (extractFromContent content))
      (buildCharMap (sortSegs (extractFromContent content)))
      (buildFullText (sortSegs (extractFromContent content))) q inst).length < inst) :
    findTextRangePure content q inst = none := by
  unfold findTextRangePure
  cases inst with
  | zero => rfl
  | succ k =>
    show (if k + 1 ≤ (uniqueMatchesFor (sortSegs (extractFromContent content))
        (buildCharMap (sortSegs (extractFromContent content)))
        (buildFullText (sortSegs (extractFromContent content))) q (k + 1)).length
      then (uniqueMatchesFor (sortSegs (extractFromContent content))
        (buildCharMap (sortSegs (extractFromContent content)))
        (buildFullText (sortSegs (extractFromContent content))) q (k + 1)).get? k
      else none) = none
    rw [if_neg (by omega)]

/-! ### The paragraph finder returns the first enclosing paragraph (C8) -/

mutual
theorem findParagraphInContent_eq (iw : Nat) :
    ∀ (content : List StructElem),
      findParagraphInContent iw content = (collectParas iw content).head?
  | [] => by
    rw [findParagraphInContent, collectParas]
    rfl
  | StructElem.mk os oe isPara rows :: rest => by
    cases os with
    | none =>
      simp only [findParagraphInContent, collectParas, List.nil_append]
      exact findParagraphInContent_eq iw rest
    | some s =>
      cases oe with
      | none =>
        simp only [findParagraphInContent, collectParas, List.nil_append]
        exact findParagraphInContent_eq iw rest
      | some e =>
        simp only [findParagraphInContent, collectParas]
        by_cases hin : (s ≤ iw && iw < e) = true
        · rw [if_pos hin, if_pos hin]
          cases isPara with
          | true =>
            rw [if_pos rfl, if_pos rfl, List.cons_append, List.head?_cons]
          | false =>
            rw [if_neg (by simp), if_neg (by simp)]
            rw [List.head?_append, findParaInRows_eq iw rows]
            cases hr : (collectParasRows iw rows).head? with
            | some r => rfl
            | none => exact findParagraphInContent_eq iw rest
        · rw [if_neg hin, if_neg hin, List.nil_append]
          exact findParagraphInContent_eq iw rest

theorem findParaInRows_eq (iw : Nat) :
    ∀ (rows : List (List (List StructElem))),
      findParaInRows iw rows = (collectParasRows iw rows).head?
  | [] => by
    rw [findParaInRows, collectParasRows]
    rfl
  | r :: rs => by
    rw [findParaInRows, collectParasRows, List.head?_append, findParaInCells_eq iw r]
    cases hc : (collectParasCells iw r).head? with
    | some res => rfl
    | none => exact findParaInRows_eq iw rs

theorem findParaInCells_eq (iw : Nat) :
    ∀ (cells : List (List StructElem)),
      findParaInCells iw cells = (collectParasCells iw cells).head?
  | [] => by
    rw [findParaInCells, collectParasCells]
    rfl
  | c :: cs => by
    rw [findParaInCells, collectParasCells, List.head?_append, findParagraphInContent_eq iw c]
    cases hc : (collectParas iw c).head? with
    | some res => rfl
    | none => exact findParaInCells_eq iw cs
end

mutual
theorem collectParas_containing (iw : Nat) :
    ∀ (content : List StructElem), ∀ r ∈ collectParas iw content,
      r.startIndex ≤ iw ∧ iw < r.endIndex
  | [] => by
    intro r hr
    rw [collectParas] at hr
    exact absurd hr (List.not_mem_nil r)
  | StructElem.mk os oe isPara rows :: rest => by
    intro r hr
    cases os with
    | none =>
      simp only [collectParas, List.nil_append] at hr
      exact collectParas_containing iw rest r hr
    | some s =>
      cases oe with
      | none =>
        simp only [collectParas, List.nil_append] at hr
        exact collectParas_containing iw rest r hr
      | some e =>
        simp only [collectParas] at hr
        by_cases hin : (s ≤ iw && iw < e) = true
        · rw [if_pos hin] at hr
          rcases List.mem_append.mp hr with hm | hm
          · rw [Bool.and_eq_true, decide_eq_true_eq, decide_eq_true_eq] at hin
            cases isPara with
            | true =>
              rw [if_pos rfl] at hm
              rw [List.mem_singleton] at hm
              rw [hm]
              exact hin
            | false =>
              rw [if_neg (by simp)] at hm
              exact collectParasRows_containing iw rows r hm
          · exact collectParas_containing iw rest r hm
        · rw [if_neg hin, List.nil_append] at hr
          exact collectParas_containing iw rest r hr

theorem collectParasRows_containing (iw : Nat) :
    ∀ (rows : List (List (List StructElem))), ∀ r ∈ collectParasRows iw rows,
      r.startIndex ≤ iw ∧ iw < r.endIndex
  | [] => by
    intro r hr
    rw [collectParasRows] at hr
    exact absurd hr (List.not_mem_nil r)
  | rw0 :: rs => by
    intro r hr
    rw [collectParasRows] at hr
    rcases List.mem_append.mp hr with hm | hm
    · exact collectParasCells_containing iw rw0 r hm
    · exact collectParasRows_containing iw rs r hm

theorem collectParasCells_containing (iw : Nat) :
    ∀ (cells : List (List StructElem)), ∀ r ∈ collectParasCells iw cells,
      r.startIndex ≤ iw ∧ iw < r.endIndex
  | [] => by
    intro r hr
    rw [collectParasCells] at hr
    exact absurd hr (List.not_mem_nil r)
  | c :: cs => by
    intro r hr
    rw [collectParasCells] at hr
    rcases List.mem_append.mp hr with hm | hm
    · exact collectParas_containing iw c r hm
    · exact collectParasCells_containing iw cs r hm
end

/-! ### The apostrophe-phrase splitter (C9) -/

theorem tryPatternAt_decomp (req : List Ch) (opt : Ch) (t : Str) (i : Nat) (b g2 : Str)
    (h : tryPatternAt req opt t i = some (b, g2)) :
    ∃ pre c suf, t = pre ++ (b ++ c :: (g2 ++ suf)) ∧ isApoChar c = true ∧ b ≠ [] := by
  simp only [tryPatternAt] at h
  split at h
  · exact Option.noConfusion h
  · next hrun =>
    split at h
    · next c hc =>
      split at h
      · next hapo =>
        rw [Option.map_eq_some'] at h
        obtain ⟨n, hms, hpair⟩ := h
        rw [Prod.mk.injEq] at hpair
        obtain ⟨hb, hg2⟩ := hpair
        have htl : t = t.take i ++ t.drop i := (List.take_append_drop i t).symm
        have hrunpre : (t.drop i).takeWhile isWordChar =
            (t.drop i).take ((t.drop i).takeWhile isWordChar).length :=
          List.prefix_iff_eq_take.mp (List.takeWhile_prefix _)
        have hsplit1 : t.drop i =
            (t.drop i).takeWhile isWordChar ++
              (t.drop i).drop ((t.drop i).takeWhile isWordChar).length := by
          conv_lhs => rw [← List.take_append_drop ((t.drop i).takeWhile isWordChar).length
            (t.drop i)]
          rw [← hrunpre]
        have hdropc : (t.drop i).drop ((t.drop i).takeWhile isWordChar).length =
            c :: (t.drop i).drop (((t.drop i).takeWhile isWordChar).length + 1) := by
          cases hd : (t.drop i).drop ((t.drop i).takeWhile isWordChar).length with
          | nil =>
            rw [hd] at hc
            exact Option.noConfusion hc
          | cons x xs =>
            rw [hd] at hc
            rw [List.head?_cons, Option.some_inj] at hc
            subst hc
            have h2 : (t.drop i).drop (((t.drop i).takeWhile isWordChar).length + 1) = xs := by
              rw [← List.drop_drop, hd]
              rfl
            rw [h2]
        have htail : (t.drop i).drop (((t.drop i).takeWhile isWordChar).length + 1) =
            g2 ++ ((t.drop i).drop (((t.drop i).takeWhile isWordChar).length + 1)).drop n := by
          conv_lhs => rw [← List.take_append_drop n
            ((t.drop i).drop (((t.drop i).takeWhile isWordChar).length + 1))]
          rw [hg2]
        refine ⟨t.take i, c,
          ((t.drop i).drop (((t.drop i).takeWhile isWordChar).length + 1)).drop n, ?_, hapo, ?_⟩
        · conv_lhs => rw [htl, hsplit1, hdropc, htail]
          rw [hb]
        · rw [← hb]
          intro he
          rw [he] at hrun
          exact hrun (by rfl)
      · exact Option.noConfusion h
    · exact Option.noConfusion h

theorem firstApoPatternMatch_split (t b g2 : Str)
    (h : firstApoPatternMatch t = some (b, g2)) :
    ∃ pre c suf, t = pre ++ (b ++ c :: (g2 ++ suf)) ∧ isApoChar c = true ∧ b ≠ [] := by
  unfold firstApoPatternMatch at h
  obtain ⟨p, _, hscan⟩ := List.exists_of_findSome?_eq_some h
  unfold scanPattern at hscan
  obtain ⟨i, _, htry⟩ := List.exists_of_findSome?_eq_some hscan
  exact tryPatternAt_decomp p.1 p.2 t i b g2 htry

theorem highlight_success_both (fetch : Except FetchErr (Option (List ContentElem)))
    (t : Str) (inst : Nat) (styleReq : Option Unit) (b a : Str)
    (hm : firstApoPatternMatch t = some (b, a))
    (hs : highlightApostrophePhrase fetch t inst styleReq = true) :
    (∃ rb, findTextRange fetch b inst = .ok (some rb)) ∧
    (∃ ra, findTextRange fetch a inst = .ok (some ra)) := by
  unfold highlightApostrophePhrase at hs
  rw [hm] at hs
  dsimp only at hs
  cases hb : findTextRange fetch b inst with
  | error e =>
    rw [hb] at hs
    dsimp only at hs
    exact Bool.noConfusion hs
  | ok brange =>
    rw [hb] at hs
    dsimp only at hs
    cases ha : findTextRange fetch a inst with
    | error e =>
      rw [ha] at hs
      dsimp only at hs
      exact Bool.noConfusion hs
    | ok arange =>
      rw [ha] at hs
      dsimp only at hs
      cases brange with
      | none =>
        exfalso
        cases arange with
        | none => simp at hs
        | some ra =>
          cases styleReq with
          | none => simp at hs
          | some u => simp at hs
      | some rb =>
        cases arange with
        | none =>
          exfalso
          cases styleReq with
          | none => simp at hs
          | some u => simp at hs
        | some ra => exact ⟨⟨rb, rfl⟩, ⟨ra, rfl⟩⟩

theorem highlight_one_half_fails (fetch : Except FetchErr (Option (List ContentElem)))
    (t : Str) (inst : Nat) (styleReq : Option Unit) (b a : Str)
    (hm : firstApoPatternMatch t = some (b, a))
    (hmiss : findTextRange fetch b inst = .ok none ∨ findTextRange fetch a inst = .ok none) :
    highlightApostrophePhrase fetch t inst styleReq = false := by
  cases hres : highlightApostrophePhrase fetch t inst styleReq with
  | false => rfl
  | true =>
    exfalso
    obtain ⟨⟨rb, hrb⟩, ⟨ra, hra⟩⟩ := highlight_success_both fetch t inst styleReq b a hm hres
    rcases hmiss with h | h
    · rw [hrb] at h
      rw [Except.ok.injEq] at h
      exact Option.noConfusion h
    · rw [hra] at h
      rw [Except.ok.injEq] at h
      exact Option.noConfusion h

theorem highlight_no_pattern (fetch : Except FetchErr (Option (List ContentElem)))
    (t : Str) (inst : Nat) (styleReq : Option Unit)
    (hm : firstApoPatternMatch t = none) :
    highlightApostrophePhrase fetch t inst styleReq =
      (match findTextRange fetch t inst with
       | .ok (some _) => styleReq.isSome
       | _ => false) := by
  unfold highlightApostrophePhrase
  rw [hm]
  cases hr : findTextRange fetch t inst with
  | error e => rfl
  | ok r =>
    cases r with
    | none => rfl
    | some range =>
      cases styleReq with
      | none => rfl
      | some u => rfl

/-! ### The claims -/

/-- C1: For every document whose extracted, position-sorted segments satisfy
the data-model invariants (each segment's end index is its start index plus
its text length, and consecutive sorted segments do not overlap), and every
non-empty query string that occurs exactly once as an exact substring of the
flattened document text, `findTextRange`'s pure pipeline at instance 1
returns a native-index `MatchRange` such that extracting that range's text
from the document's segments yields the query exactly. -/
theorem claim_C1 (content : List ContentElem) (q : Str)
    (hq : q ≠ [])
    (hcons : ∀ x ∈ sortSegs (extractFromContent content),
      x.endIndex = x.startIndex + x.text.length)
    (hch : List.Chain' (fun a b => a.endIndex ≤ b.startIndex)
      (sortSegs (extractFromContent content)))
    (huniq : (occPositions q
      (buildFullText (sortSegs (extractFromContent content)))).length = 1) :
    ∃ r, findTextRangePure content q 1 = some r ∧
      extractTextFromRange (sortSegs (extractFromContent content))
        r.startIndex r.endIndex = q := by
  obtain ⟨fi, hocc⟩ := List.length_eq_one.mp huniq
  have hres := findTextRangePure_exact_case content q 1 hq hcons hch (le_refl 1) (by omega)
  rw [hocc] at hres
  have hfi : fi ∈ occPositions q (buildFullText (sortSegs (extractFromContent content))) := by
    rw [hocc]
    exact List.mem_singleton.mpr rfl
  have hbound := mem_occPositions_bound hq hfi
  have hq1 : 1 ≤ q.length := List.length_pos.mpr hq
  have hext := extGen (sortSegs (extractFromContent content)) hcons hch fi q.length hq1
    (by omega)
  refine ⟨rangeOfHit (sortSegs (extractFromContent content)) q.length fi, ?_, ?_⟩
  · rw [hres]
    rfl
  · show extractTextFromRange (sortSegs (extractFromContent content))
      (origAt (sortSegs (extractFromContent content)) fi)
      (origAt (sortSegs (extractFromContent content)) (fi + q.length - 1) + 1) = q
    rw [hext]
    exact mem_occPositions_take hfi

/-- C1 witness: the document *hello* at native indices 1..6 with query *ell*,
which occurs exactly once; the pipeline returns the range 2..5 and extraction
recovers *ell*. -/
theorem claim_C1_witness :
    qEll ≠ [] ∧
    (∀ x ∈ sortSegs (extractFromContent docHello),
      x.endIndex = x.startIndex + x.text.length) ∧
    List.Chain' (fun a b => a.endIndex ≤ b.startIndex)
      (sortSegs (extractFromContent docHello)) ∧
    (occPositions qEll (buildFullText (sortSegs (extractFromContent docHello)))).length = 1 ∧
    (∃ r, findTextRangePure docHello qEll 1 = some r ∧
      extractTextFromRange (sortSegs (extractFromContent docHello))
        r.startIndex r.endIndex = qEll) := by
  have hseg : extractFromContent docHello =
      [⟨[0x68, 0x65, 0x6C, 0x6C, 0x6F], 1, 6⟩] := by
    simp [docHello, extractFromContent, extractFromRows, segOfParaElem]
  have h1 : qEll ≠ [] := by decide
  have h2 : ∀ x ∈ sortSegs (extractFromContent docHello),
      x.endIndex = x.startIndex + x.text.length := by
    rw [hseg]
    decide
  have h3 : List.Chain' (fun a b => a.endIndex ≤ b.startIndex)
      (sortSegs (extractFromContent docHello)) := by
    rw [hseg]
    exact List.chain'_singleton _
  have h4 : (occPositions qEll
      (buildFullText (sortSegs (extractFromContent docHello)))).length = 1 := by
    rw [hseg]
    decide
  exact ⟨h1, h2, h3, h4, claim_C1 docHello qEll h1 h2 h3 h4⟩

/-- C2: every range produced by the normalized-pass matcher for the
normalized query satisfies the round-trip validation postcondition:
re-extracting the range's text from the original segments and re-normalizing
it equals the normalized query exactly.  (Candidates failing this round trip
are discarded inside `normCandidate` and never returned, by construction of
`normPassMatches`.) -/
theorem claim_C2 (segs : List TextSegment) (cm : List CharMapping)
    (fullText searchText : Str) (r : MatchRange)
    (h : r ∈ normPassMatches segs cm fullText (normalizeText searchText)) :
    normalizeText (extractTextFromRange segs r.startIndex r.endIndex) =
      normalizeText searchText :=
  normPassMatches_roundtrip segs cm fullText (normalizeText searchText) r h

/-- C2 witness: searching the straight-apostrophe query in the
curly-apostrophe document, the normalized pass produces the range 1..6, and
its round-trip indeed re-normalizes to the normalized query. -/
theorem claim_C2_witness :
    (⟨1, 6⟩ : MatchRange) ∈ normPassMatches
      (sortSegs (extractFromContent docCurly))
      (buildCharMap (sortSegs (extractFromContent docCurly)))
      (buildFullText (sortSegs (extractFromContent docCurly)))
      (normalizeText qStraight) ∧
    normalizeText (extractTextFromRange (sortSegs (extractFromContent docCurly)) 1 6) =
      normalizeText qStraight := by
  have hseg : extractFromContent docCurly =
      [⟨[0x64, 0x6F, 0x6E, 0x2019, 0x74, 0x20, 0x67, 0x6F], 1, 9⟩] := by
    simp [docCurly, extractFromContent, extractFromRows, segOfParaElem]
  have hmem : (⟨1, 6⟩ : MatchRange) ∈ normPassMatches
      (sortSegs (extractFromContent docCurly))
      (buildCharMap (sortSegs (extractFromContent docCurly)))
      (buildFullText (sortSegs (extractFromContent docCurly)))
      (normalizeText qStraight) := by
    rw [hseg]
    decide
  exact ⟨hmem, claim_C2 _ _ _ _ _ hmem⟩

/-- C6: the exact pass finds every occurrence of the query — for a non-empty
pattern the scan loop's hits are exactly the set of positions where the
pattern occurs as a prefix of the remaining text — and, because the scan
restarts at `foundIndex + 1`, overlapping occurrences are reported:
searching *aa* in *aaa* yields the two hits 0 and 1. -/
theorem claim_C6 :
    (∀ pat text : Str, pat ≠ [] → findAllHits pat text = occPositions pat text) ∧
    findAllHits [0x61, 0x61] [0x61, 0x61, 0x61] = [0, 1] := by
  refine ⟨findAllHits_eq, ?_⟩
  decide

/-- C6 witness: the general hit characterization applied to *aa* in *aaa*. -/
theorem claim_C6_witness :
    ([0x61, 0x61] : Str) ≠ [] ∧
    findAllHits [0x61, 0x61] [0x61, 0x61, 0x61] =
      occPositions [0x61, 0x61] [0x61, 0x61, 0x61] :=
  ⟨by decide, claim_C6.1 [0x61, 0x61] [0x61, 0x61, 0x61] (by decide)⟩

/-- C7: the normalizer is idempotent — for every input string,
normalizing twice equals normalizing once. -/
theorem claim_C7 (s : Str) : normalizeText (normalizeText s) = normalizeText s :=
  normalizeText_idem s

/-- C10: for every call with a non-empty query whose normalization is also
non-empty, every match-scanning loop of `findTextRange` terminates: for each
search variant, any `indexOf` hit is at or after the restart position and
leaves room for the pattern inside the text (so positions strictly advance
and are bounded by the text length), and both the exact-pass scan and the
normalized-pass scan finish within `length + 1` iterations of fuel. -/
theorem claim_C10 (textToFind fullText : Str)
    (h1 : textToFind ≠ []) (h2 : normalizeText textToFind ≠ []) :
    ∀ v ∈ searchVariants textToFind, ∀ si : Nat,
      (∀ fi, jsIndexOf v fullText si = some fi →
        si ≤ fi ∧ fi + v.length ≤ fullText.length) ∧
      (scanLoop v fullText (fullText.length + 1) si).isSome ∧
      (scanLoop (normalizeText v) (normalizeText fullText)
        ((normalizeText fullText).length + 1) si).isSome := by
  intro v hv si
  have hvne : v ≠ [] ∧ normalizeText v ≠ [] := by
    unfold searchVariants at hv
    rcases List.mem_cons.mp hv with he | hv2
    · subst he
      exact ⟨h1, h2⟩
    · rcases List.mem_cons.mp hv2 with he | hv3
      · subst he
        rw [normalizeText_idem]
        exact ⟨h2, h2⟩
      · rcases List.mem_cons.mp hv3 with he | hv4
        · subst he
          rw [normalizeText_apoStd]
          refine ⟨?_, h2⟩
          intro he2
          have := congrArg List.length he2
          rw [apoStd_length, List.length_nil] at this
          exact h1 (List.length_eq_zero.mp this)
        · exact absurd hv4 (List.not_mem_nil v)
  refine ⟨?_, scanLoop_terminates v fullText hvne.1 si,
    scanLoop_terminates _ _ hvne.2 si⟩
  intro fi hfi
  have hfacts := jsIndexOf_some_facts hfi
  exact ⟨hfacts.1, mem_occPositions_bound hvne.1 hfacts.2⟩

/-- C10 witness: the termination bound applied to the literal variant of the
query at search index 0 against the mixed-apostrophe document text. -/
theorem claim_C10_witness :
    qStraight ≠ [] ∧ normalizeText qStraight ≠ [] ∧
    ((scanLoop qStraight [0x64, 0x6F, 0x6E, 0x27, 0x74, 0x20, 0x67, 0x6F]
      ([0x64, 0x6F, 0x6E, 0x27, 0x74, 0x20, 0x67, 0x6F].length + 1) 0).isSome) := by
  have h1 : qStraight ≠ [] := by decide
  have h2 : normalizeText qStraight ≠ [] := by decide
  have hmem : qStraight ∈ searchVariants qStraight := List.mem_cons_self _ _
  exact ⟨h1, h2,
    (claim_C10 qStraight [0x64, 0x6F, 0x6E, 0x27, 0x74, 0x20, 0x67, 0x6F] h1 h2
      qStraight hmem 0).2.1⟩

/-- C4: the variant order and gating of the matcher — the variants are
exactly the literal query, then the fully normalized query, then the
apostrophe-only-standardized query; the accumulated matches are those of the
processed prefix of the variant list, where a variant is processed only while
the running match total is still below the requested instance; and within a
variant the normalized pass runs exactly when the exact pass is empty. -/
theorem claim_C4 (segs : List TextSegment) (cm : List CharMapping)
    (fullText q : Str) (inst : Nat) :
    searchVariants q = [q, normalizeText q, apoStd q] ∧
    allMatchesFor segs cm fullText q inst =
      (variantsProcessed (findValidatedMatches segs cm fullText) inst
        (searchVariants q)).flatMap (findValidatedMatches segs cm fullText) ∧
    (∀ v : Str, exactPassMatches cm fullText v ≠ [] →
      findValidatedMatches segs cm fullText v = exactPassMatches cm fullText v) ∧
    (∀ v : Str, exactPassMatches cm fullText v = [] →
      findValidatedMatches segs cm fullText v =
        normPassMatches segs cm fullText (normalizeText v)) := by
  refine ⟨rfl, ?_, fun v hv => findValidatedMatches_of_exact_ne segs cm fullText v hv,
    fun v hv => findValidatedMatches_of_exact_nil segs cm fullText v hv⟩
  unfold allMatchesFor
  rw [tryVariants_eq_processed]
  simp

/-- C4 witness: in the *hello* document the exact pass for the query *ell*
is non-empty, so the validated matches of that variant are exactly the exact
pass's matches (the normalized pass is skipped). -/
theorem claim_C4_witness :
    exactPassMatches (buildCharMap (sortSegs (extractFromContent docHello)))
      (buildFullText (sortSegs (extractFromContent docHello))) qEll ≠ [] ∧
    findValidatedMatches (sortSegs (extractFromContent docHello))
      (buildCharMap (sortSegs (extractFromContent docHello)))
      (buildFullText (sortSegs (extractFromContent docHello))) qEll =
      exactPassMatches (buildCharMap (sortSegs (extractFromContent docHello)))
        (buildFullText (sortSegs (extractFromContent docHello))) qEll := by
  have hseg : extractFromContent docHello =
      [⟨[0x68, 0x65, 0x6C, 0x6C, 0x6F], 1, 6⟩] := by
    simp [docHello, extractFromContent, extractFromRows, segOfParaElem]
  have hne : exactPassMatches (buildCharMap (sortSegs (extractFromContent docHello)))
      (buildFullText (sortSegs (extractFromContent docHello))) qEll ≠ [] := by
    rw [hseg]
    decide
  exact ⟨hne,
    (claim_C4 (sortSegs (extractFromContent docHello))
      (buildCharMap (sortSegs (extractFromContent docHello)))
      (buildFullText (sortSegs (extractFromContent docHello))) qEll 1).2.2.1 qEll hne⟩

/-- C5: fetch failures propagate in kind — 404 surfaces as the user-facing
not-found error, 403 as the user-facing permission error, anything else as an
internal error — and when the pipeline's unique validated matches number
fewer than the requested instance (in particular, zero occurrences), the
search returns a successful `null` rather than an error. -/
theorem claim_C5 :
    (∀ (q : Str) (inst : Nat),
      findTextRange (.error .notFound) q inst = .error .userNotFound) ∧
    (∀ (q : Str) (inst : Nat),
      findTextRange (.error .permissionDenied) q inst = .error .userPermission) ∧
    (∀ (q : Str) (inst : Nat),
      findTextRange (.error .other) q inst = .error .internal) ∧
    (∀ (content : List ContentElem) (q : Str) (inst : Nat),
      (uniqueMatchesFor (sortSegs (extractFromContent content))
        (buildCharMap (sortSegs (extractFromContent content)))
        (buildFullText (sortSegs (extractFromContent content))) q inst).length < inst →
      findTextRange (.ok (some content)) q inst = .ok none) := by
  refine ⟨fun q inst => rfl, fun q inst => rfl, fun q inst => rfl, ?_⟩
  intro content q inst h
  show Except.ok (findTextRangePure content q inst) = Except.ok none
  rw [findTextRangePure_insufficient content q inst h]

/-- C5 witness: the empty document has no matches for the one-character
query *x*, so requesting instance 1 returns a successful `null`. -/
theorem claim_C5_witness :
    (uniqueMatchesFor (sortSegs (extractFromContent ([] : List ContentElem)))
      (buildCharMap (sortSegs (extractFromContent ([] : List ContentElem))))
      (buildFullText (sortSegs (extractFromContent ([] : List ContentElem))))
      [0x78] 1).length < 1 ∧
    findTextRange (.ok (some ([] : List ContentElem))) [0x78] 1 = .ok none := by
  have hseg : extractFromContent ([] : List ContentElem) = [] := by
    rw [extractFromContent]
  have h : (uniqueMatchesFor (sortSegs (extractFromContent ([] : List ContentElem)))
      (buildCharMap (sortSegs (extractFromContent ([] : List ContentElem))))
      (buildFullText (sortSegs (extractFromContent ([] : List ContentElem))))
      [0x78] 1).length < 1 := by
    rw [hseg]
    decide
  exact ⟨h, claim_C5.2.2.2 [] [0x78] 1 h⟩

/-- C8: the paragraph finder refines the spec's reading — on a successful
fetch it returns the first element, in traversal order, of the collection of
paragraph-type elements whose half-open boundary range contains the index
(recursing into table cells exactly when the index falls inside the table's
own range, so an index in a cell's paragraph yields the inner paragraph's
range), every collected range indeed contains the index half-openly, and when
the collection is empty the result is `null`. -/
theorem claim_C8 :
    (∀ (content : List StructElem) (iw : Nat),
      getParagraphRange (.ok (some content)) iw = .ok ((collectParas iw content).head?)) ∧
    (∀ (content : List StructElem) (iw : Nat), ∀ r ∈ collectParas iw content,
      r.startIndex ≤ iw ∧ iw < r.endIndex) := by
  constructor
  · intro content iw
    show Except.ok (findParagraphInContent iw content) =
      Except.ok ((collectParas iw content).head?)
    rw [findParagraphInContent_eq]
  · intro content iw r hr
    exact collectParas_containing iw content r hr

/-- C8 witness: in the document with a table 0..50 holding a cell paragraph
5..10 and a top-level paragraph 50..60, index 7 collects exactly the inner
cell paragraph; its range contains 7, and `getParagraphRange` returns it
(not the table's outer range). -/
theorem claim_C8_witness :
    (⟨5, 10⟩ : MatchRange) ∈ collectParas 7 sdocPara ∧
    ((⟨5, 10⟩ : MatchRange).startIndex ≤ 7 ∧ 7 < (⟨5, 10⟩ : MatchRange).endIndex) ∧
    getParagraphRange (.ok (some sdocPara)) 7 = .ok (some ⟨5, 10⟩) := by
  have hc : collectParas 7 sdocPara = [⟨5, 10⟩] := by
    simp [sdocPara, collectParas, collectParasRows, collectParasCells]
  have hmem : (⟨5, 10⟩ : MatchRange) ∈ collectParas 7 sdocPara := by
    rw [hc]
    exact List.mem_singleton.mpr rfl
  refine ⟨hmem, claim_C8.2 sdocPara 7 ⟨5, 10⟩ hmem, ?_⟩
  rw [claim_C8.1 sdocPara 7, hc]
  rfl

/-- C9: when an apostrophe pattern matches the query, the query splits at an
apostrophe character into a non-empty before-part and the pattern's after-part
(the parts occur contiguously around the apostrophe inside the query); both
halves are then resolved through the full search pipeline at the same
instance number, overall success implies both halves resolved, a half that
returns `null` forces overall failure, and when no pattern matches, the
helper performs a single whole-phrase search. -/
theorem claim_C9 :
    (∀ (t b a : Str), firstApoPatternMatch t = some (b, a) →
      ∃ pre c suf, t = pre ++ (b ++ c :: (a ++ suf)) ∧ isApoChar c = true ∧ b ≠ []) ∧
    (∀ (fetch : Except FetchErr (Option (List ContentElem))) (t : Str) (inst : Nat)
       (styleReq : Option Unit) (b a : Str),
      firstApoPatternMatch t = some (b, a) →
      highlightApostrophePhrase fetch t inst styleReq = true →
      (∃ rb, findTextRange fetch b inst = .ok (some rb)) ∧
      (∃ ra, findTextRange fetch a inst = .ok (some ra))) ∧
    (∀ (fetch : Except FetchErr (Option (List ContentElem))) (t : Str) (inst : Nat)
       (styleReq : Option Unit) (b a : Str),
      firstApoPatternMatch t = some (b, a) →
      (findTextRange fetch b inst = .ok none ∨ findTextRange fetch a inst = .ok none) →
      highlightApostrophePhrase fetch t inst styleReq = false) ∧
    (∀ (fetch : Except FetchErr (Option (List ContentElem))) (t : Str) (inst : Nat)
       (styleReq : Option Unit),
      firstApoPatternMatch t = none →
      highlightApostrophePhrase fetch t inst styleReq =
        (match findTextRange fetch t inst with
         | .ok (some _) => styleReq.isSome
         | _ => false)) :=
  ⟨firstApoPatternMatch_split, highlight_success_both, highlight_one_half_fails,
    highlight_no_pattern⟩

/-- C9 witness: on the query *that's more* against the document containing
*that is more*, the `s?`-pattern splits the query into *that* and *s more*;
the highlight succeeds, and by the split-resolution property both halves
indeed resolve through the pipeline. -/
theorem claim_C9_witness :
    firstApoPatternMatch qThatApo = some (qThat, qSMore) ∧
    highlightApostrophePhrase (.ok (some docThat)) qThatApo 1 (some ()) = true ∧
    (∃ rb, findTextRange (.ok (some docThat)) qThat 1 = .ok (some rb)) ∧
    (∃ ra, findTextRange (.ok (some docThat)) qSMore 1 = .ok (some ra)) := by
  have hseg : extractFromContent docThat =
      [⟨[0x74, 0x68, 0x61, 0x74, 0x20, 0x69, 0x73, 0x20, 0x6D, 0x6F, 0x72, 0x65], 1, 13⟩] := by
    simp [docThat, extractFromContent, extractFromRows, segOfParaElem]
  have hm : firstApoPatternMatch qThatApo = some (qThat, qSMore) := by decide
  have hb0 : findTextRangePure docThat qThat 1 = some ⟨1, 5⟩ := by
    rw [findTextRangePure, hseg]
    decide
  have ha0 : findTextRangePure docThat qSMore 1 = some ⟨7, 13⟩ := by
    rw [findTextRangePure, hseg]
    decide
  have hb : findTextRange (.ok (some docThat)) qThat 1 = .ok (some ⟨1, 5⟩) := by
    show Except.ok (findTextRangePure docThat qThat 1) = Except.ok (some ⟨1, 5⟩)
    rw [hb0]
  have ha : findTextRange (.ok (some docThat)) qSMore 1 = .ok (some ⟨7, 13⟩) := by
    show Except.ok (findTextRangePure docThat qSMore 1) = Except.ok (some ⟨7, 13⟩)
    rw [ha0]
  have hs : highlightApostrophePhrase (.ok (some docThat)) qThatApo 1 (some ()) = true := by
    unfold highlightApostrophePhrase
    rw [hm]
    dsimp only
    rw [hb, ha]
    rfl
  exact ⟨hm, hs,
    claim_C9.2.1 (.ok (some docThat)) qThatApo 1 (some ()) qThat qSMore hm hs⟩

/-- C3 counterexample: in the document whose text is *don t don t* (first
with the straight apostrophe, then with the curly one), the curly query
occurs exactly once as an exact substring (N = 1), yet instance N + 1 = 2
does not return `null`: the normalized variant of the query contributes a
second match, and instance 2 returns the range 7..12. -/
theorem claim_C3_counterexample :
    (occPositions qCurly
      (buildFullText (sortSegs (extractFromContent docMixed)))).length = 1 ∧
    findTextRangePure docMixed qCurly 2 = some ⟨7, 12⟩ := by
  have hseg : extractFromContent docMixed =
      [⟨[0x64, 0x6F, 0x6E, 0x27, 0x74, 0x20, 0x64, 0x6F, 0x6E, 0x2019, 0x74], 1, 12⟩] := by
    simp [docMixed, extractFromContent, extractFromRows, segOfParaElem]
  constructor
  · rw [hseg]
    decide
  · rw [findTextRangePure, hseg]
    decide

/-- C3 amended: for a non-empty query with N ≥ 1 exact occurrences in the
flattened text of a well-formed document, every instance 1 ≤ k ≤ N returns a
range, consecutive instances have strictly increasing start indices, and —
additionally assuming the query is fixed by normalization and by apostrophe
standardization, so the variant passes add no further matches — instance
N + 1 returns `null`. -/
theorem claim_C3_amended (content : List ContentElem) (q : Str) (N : Nat)
    (hq : q ≠ [])
    (hcons : ∀ x ∈ sortSegs (extractFromContent content),
      x.endIndex = x.startIndex + x.text.length)
    (hch : List.Chain' (fun a b => a.endIndex ≤ b.startIndex)
      (sortSegs (extractFromContent content)))
    (hN : (occPositions q
      (buildFullText (sortSegs (extractFromContent content)))).length = N)
    (hN1 : 1 ≤ N) :
    (∀ k, 1 ≤ k → k ≤ N → (findTextRangePure content q k).isSome = true) ∧
    (∀ k r r2, 1 ≤ k → k + 1 ≤ N →
      findTextRangePure content q k = some r →
      findTextRangePure content q (k + 1) = some r2 →
      r.startIndex < r2.startIndex) ∧
    (normalizeText q = q → apoStd q = q →
      findTextRangePure content q (N + 1) = none) := by
  refine ⟨?_, ?_, ?_⟩
  · intro k hk1 hkN
    rw [findTextRangePure_exact_case content q k hq hcons hch hk1 (by omega)]
    rw [List.get?_eq_get (by rw [List.length_map]; omega)]
    rfl
  · intro k r r2 hk1 hk2 hr hr2
    rw [findTextRangePure_exact_case content q k hq hcons hch hk1 (by omega)] at hr
    rw [findTextRangePure_exact_case content q (k + 1) hq hcons hch (by omega)
      (by omega)] at hr2
    obtain ⟨hb1, he1⟩ := List.get?_eq_some.mp hr
    obtain ⟨hb2, he2⟩ := List.get?_eq_some.mp hr2
    have hmono := rangeOfHit_mono (sortSegs (extractFromContent content)) q hq hcons hch
    rw [List.pairwise_iff_getElem] at hmono
    have hlt := hmono (k - 1) (k + 1 - 1) hb1 hb2 (by omega)
    rw [List.get_eq_getElem] at he1 he2
    rw [he1, he2] at hlt
    exact hlt
  · intro hfix1 hfix2
    have hover := findTextRangePure_over_instance content q hq hcons hch hfix1 hfix2
      (by omega)
    rw [hN] at hover
    exact hover

/-- C3 amended witness: the document *hello* with the one-character query
*l*, which occurs N = 2 times; instances 1 and 2 return ranges, and — the
query being fixed by both normalization and apostrophe standardization —
instance 3 returns `null`. -/
theorem claim_C3_amended_witness :
    qEl ≠ [] ∧
    (∀ x ∈ sortSegs (extractFromContent docHello),
      x.endIndex = x.startIndex + x.text.length) ∧
    List.Chain' (fun a b => a.endIndex ≤ b.startIndex)
      (sortSegs (extractFromContent docHello)) ∧
    (occPositions qEl (buildFullText (sortSegs (extractFromContent docHello)))).length = 2 ∧
    (∀ k, 1 ≤ k → k ≤ 2 → (findTextRangePure docHello qEl k).isSome = true) ∧
    (normalizeText qEl = qEl → apoStd qEl = qEl →
      findTextRangePure docHello qEl 3 = none) := by
  have hseg : extractFromContent docHello =
      [⟨[0x68, 0x65, 0x6C, 0x6C, 0x6F], 1, 6⟩] := by
    simp [docHello, extractFromContent, extractFromRows, segOfParaElem]
  have h1 : qEl ≠ [] := by decide
  have h2 : ∀ x ∈ sortSegs (extractFromContent docHello),
      x.endIndex = x.startIndex + x.text.length := by
    rw [hseg]
    decide
  have h3 : List.Chain' (fun a b => a.endIndex ≤ b.startIndex)
      (sortSegs (extractFromContent docHello)) := by
    rw [hseg]
    exact List.chain'_singleton _
  have h4 : (occPositions qEl
      (buildFullText (sortSegs (extractFromContent docHello)))).length = 2 := by
    rw [hseg]
    decide
  have hth := claim_C3_amended docHello qEl 2 h1 h2 h3 h4 (by omega)
  exact ⟨h1, h2, h3, h4, hth.1, hth.2.2⟩
